import Mathlib

/- Verification development for the git service layer of the wit repository
   (src/wit/src/service/git): the hierarchical path-listing engine
   (GitRepository::list_tree / list_index), the byte-to-text conversion
   (MaybeLossyUtf8), the error taxonomy (GitError and the git2 error
   mapping), get_blob, open, and the reference/branch target-id fallback.

   Shallow embedding conventions:
   - Rust `String` / `&str` values are Lean `String`; the string
     operations the source uses (split on a char, splitn, starts_with,
     strip_suffix, join) are re-defined over the character list of a
     string so proofs can proceed by list induction.
   - Raw byte slices are `List Nat` (each element a byte value).
   - Backend (libgit2) primitives are parameters: short-id computation
     is an opaque `Nat → String`, object lookup is a function into
     `Except Git2Error _`, and a tree object is a value of an inductive
     type whose subtree resolution may fail (`Option`), mirroring
     `Repository::find_tree` fallibility.
   - A Rust panic is modelled as `Option.none` in the function result. -/

/-! ## String primitives (mirroring the `str` operations used by the source) -/

/-- Splitting a character list at every occurrence of `sep`, mirroring
Rust `str::split(sep)`: the result is always non-empty, and splitting
the empty string yields `[[]]`. -/
def splitCharList (sep : Char) : List Char → List (List Char)
  | [] => [[]]
  | c :: cs =>
    match splitCharList sep cs with
    | [] => [[]]
    | g :: gs => if c = sep then [] :: g :: gs else (c :: g) :: gs

/-- Rust `str::split(sep)` collected into a list. -/
def strSplit (sep : Char) (s : String) : List String :=
  (splitCharList sep s.data).map (fun l => String.mk l)

/-- Rust `[&str]::join(sep)` for a one-character separator. -/
def joinWith (sep : Char) : List String → String
  | [] => ""
  | [x] => x
  | x :: xs => x ++ String.mk [sep] ++ joinWith sep xs

/-- Join with "/" as in `components[0..depth + 1].join("/")`. -/
def joinSlash (xs : List String) : String :=
  joinWith '/' xs

/-- Rust `s.starts_with(pre)`. -/
def strStartsWith (s pre : String) : Bool :=
  pre.data.isPrefixOf s.data

/-- Rust `s.contains(c)` for a char pattern. -/
def strContainsChar (s : String) (c : Char) : Bool :=
  s.data.contains c

/-- Rust `path.strip_suffix('/').unwrap_or(path)`: removes exactly one
trailing slash if present. -/
def stripSuffixSlash (s : String) : String :=
  if s.data.getLast? = some '/' then String.mk s.data.dropLast else s

/-- Path segments of a query path: the empty path has no segments,
otherwise the '/'-separated components. Matches the `depth` computation
in `list_index` (`0` when empty, else `path.split('/').count()`). -/
def pathSegs (s : String) : List String :=
  if s = "" then [] else strSplit '/' s

/-- The `depth` computed by `list_index`. -/
def queryDepth (s : String) : Nat :=
  if s = "" then 0 else (strSplit '/' s).length

/-- Rust `str::splitn(n, sep)` collected into a list: at most `n`
pieces, the last piece holding the unsplit remainder. -/
def strSplitn (n : Nat) (sep : Char) (s : String) : List String :=
  let parts := strSplit sep s
  if n = 0 then []
  else if parts.length ≤ n then parts
  else parts.take (n - 1) ++ [joinWith sep (parts.drop (n - 1))]

/-! ## MaybeLossyUtf8 (src/wit/src/service/git/model.rs) -/

/-- UTF-8 continuation byte test (0x80..=0xBF). -/
def utf8Cont (b : Nat) : Bool :=
  decide (0x80 ≤ b ∧ b ≤ 0xBF)

/-- UTF-8 validity of a byte sequence, as checked by Rust
`String::from_utf8` (rejecting overlong encodings, surrogates and
values above U+10FFFF, per the standard byte-range table). -/
def utf8Valid : List Nat → Bool
  | [] => true
  | b :: rest =>
    if b ≤ 0x7F then utf8Valid rest
    else if 0xC2 ≤ b ∧ b ≤ 0xDF then
      match rest with
      | b1 :: r => utf8Cont b1 && utf8Valid r
      | [] => false
    else if b = 0xE0 then
      match rest with
      | b1 :: b2 :: r => decide (0xA0 ≤ b1 ∧ b1 ≤ 0xBF) && utf8Cont b2 && utf8Valid r
      | _ => false
    else if 0xE1 ≤ b ∧ b ≤ 0xEC then
      match rest with
      | b1 :: b2 :: r => utf8Cont b1 && utf8Cont b2 && utf8Valid r
      | _ => false
    else if b = 0xED then
      match rest with
      | b1 :: b2 :: r => decide (0x80 ≤ b1 ∧ b1 ≤ 0x9F) && utf8Cont b2 && utf8Valid r
      | _ => false
    else if 0xEE ≤ b ∧ b ≤ 0xEF then
      match rest with
      | b1 :: b2 :: r => utf8Cont b1 && utf8Cont b2 && utf8Valid r
      | _ => false
    else if b = 0xF0 then
      match rest with
      | b1 :: b2 :: b3 :: r =>
        decide (0x90 ≤ b1 ∧ b1 ≤ 0xBF) && utf8Cont b2 && utf8Cont b3 && utf8Valid r
      | _ => false
    else if 0xF1 ≤ b ∧ b ≤ 0xF3 then
      match rest with
      | b1 :: b2 :: b3 :: r => utf8Cont b1 && utf8Cont b2 && utf8Cont b3 && utf8Valid r
      | _ => false
    else if b = 0xF4 then
      match rest with
      | b1 :: b2 :: b3 :: r =>
        decide (0x80 ≤ b1 ∧ b1 ≤ 0x8F) && utf8Cont b2 && utf8Cont b3 && utf8Valid r
      | _ => false
    else false

/-- Embeds `impl From<&[u8]> for MaybeLossyUtf8` (model.rs lines 305-313).
The source is
`String::from_utf8(bytes.into()).map_err(|e| String::from_utf8_lossy(e.as_bytes()).into_owned()).expect("from_utf8_lossy() is infallible")`.
On valid UTF-8, `from_utf8` returns `Ok` and the resulting string holds
exactly the input bytes. On invalid UTF-8, `from_utf8` returns `Err`,
`map_err` replaces the error payload with the lossy decoding, and then
`Result::expect` is applied to an `Err` value, which panics (the lossy
string ends up in the panic message, not in the return value). The panic
is modelled as `none`; a returned string is modelled by its UTF-8 bytes. -/
def maybeLossyUtf8FromBytes (bytes : List Nat) : Option (List Nat) :=
  if utf8Valid bytes then some bytes else none

/-! ## Data model for the staged-index listing (model.rs, mod.rs) -/

/-- Backend `git2::IndexEntry` restricted to the fields `list_index`
reads; `path` holds the decoded `entry.path` bytes (`ctime`/`mtime` are
the `.seconds()` values the source extracts). -/
structure IndexEntry where
  ctime : Int
  file_size : Nat
  gid : Nat
  id : Nat
  mode : Nat
  mtime : Int
  uid : Nat
  path : String
deriving DecidableEq

/-- GitIndexEntry from model.rs. -/
structure GitIndexEntry where
  ctime : Int
  file_size : Nat
  gid : Nat
  id : Nat
  mode : Nat
  mtime : Int
  name : String
  path : String
  short_id : String
  uid : Nat
deriving DecidableEq

/-- GitIndexDirectory from model.rs. -/
structure GitIndexDirectory where
  name : String
  path : String
deriving DecidableEq

/-- GitIndex from model.rs. -/
inductive GitIndex : Type where
  | directory : GitIndexDirectory → GitIndex
  | entry : GitIndexEntry → GitIndex
deriving DecidableEq

/-- Full path of a listing element (`path` field of either variant). -/
def GitIndex.fullPath : GitIndex → String
  | .directory d => d.path
  | .entry e => e.path

/-- Embeds the closure `convert_to_index_entry` of `list_index`
(mod.rs lines 198-219). `sid` abstracts
`self.repo.find_blob(entry.id).map(|o| o.get_short_id()).unwrap_or_default()`,
the backend short-id lookup by object id. -/
def convertToIndexEntry (sid : Nat → String) (e : IndexEntry) (path : String) : GitIndexEntry :=
  { ctime := e.ctime
    file_size := e.file_size
    gid := e.gid
    id := e.id
    mode := e.mode
    mtime := e.mtime
    name := ((strSplit '/' path).getLast?.getD "")
    path := path
    short_id := sid e.id
    uid := e.uid }

/-- Embeds the `filter_map` body of `list_index` (mod.rs lines 225-251),
with the per-call set of seen directory paths threaded as `seen`.
`path` is the already-normalized query path and `depth` the segment
count computed by `list_index`. -/
def listIndexGo (sid : Nat → String) (path : String) (depth : Nat) :
    List IndexEntry → List String → List GitIndex
  | [], _ => []
  | e :: rest, seen =>
    let fp := e.path
    if fp = path then
      GitIndex.entry (convertToIndexEntry sid e fp) :: listIndexGo sid path depth rest seen
    else if path = "" || strStartsWith fp (path ++ "/") then
      let comps := strSplitn (depth + 2) '/' fp
      if comps.length = depth + 1 then
        GitIndex.entry (convertToIndexEntry sid e fp) :: listIndexGo sid path depth rest seen
      else
        let dpath := joinSlash (comps.take (depth + 1))
        if seen.contains dpath then
          listIndexGo sid path depth rest seen
        else
          GitIndex.directory { name := comps.getD depth "", path := dpath } ::
            listIndexGo sid path depth rest (dpath :: seen)
    else
      listIndexGo sid path depth rest seen

/-- Embeds `GitRepository::list_index` (mod.rs lines 191-253) over a
flat index given as the list of its entries in iteration order. -/
def listIndex (sid : Nat → String) (entries : List IndexEntry) (path0 : String) :
    List GitIndex :=
  let path := stripSuffixSlash path0
  let depth := if path = "" then 0 else (strSplit '/' path).length
  listIndexGo sid path depth entries []

/-! ## Data model for the tree listing (model.rs, mod.rs) -/

/-- GitObjectType from model.rs (the five git2 object kinds). -/
inductive GitObjectType : Type where
  | any
  | blob
  | commit
  | tag
  | tree
deriving DecidableEq

/-- Backend tree entry as visited by `git2::Tree::walk`: the entry
metadata plus, for entries that are tree objects, the result of
resolving the entry to its child-entry list (`sub = none` models a
failing `Repository::find_tree` / unreadable subtree, `sub = some ts`
a successful resolution). Non-tree entries carry `sub = none`. -/
inductive TEnt : Type where
  | mk (name : String) (id : Nat) (kind : Option GitObjectType) (filemode : Int)
      (sub : Option (List TEnt)) : TEnt

/-- Entry name (`entry.name()`; names are taken as valid UTF-8 here). -/
def TEnt.name : TEnt → String
  | .mk n _ _ _ _ => n

/-- Entry object id (`entry.id()`). -/
def TEnt.id : TEnt → Nat
  | .mk _ i _ _ _ => i

/-- Entry object kind (`entry.kind()`). -/
def TEnt.kind : TEnt → Option GitObjectType
  | .mk _ _ k _ _ => k

/-- Entry file mode (`entry.filemode()`). -/
def TEnt.filemode : TEnt → Int
  | .mk _ _ _ f _ => f

/-- Subtree resolution (`self.repo.find_tree(entry.id())`). -/
def TEnt.sub : TEnt → Option (List TEnt)
  | .mk _ _ _ _ s => s

/-- GitTree from model.rs. -/
structure GitTree where
  filemode : Int
  id : Nat
  kind : Option GitObjectType
  name : String
  root : String
  short_id : String
deriving DecidableEq

/-- Full path of a produced tree-listing element (`root + name`). -/
def GitTree.fullPath (t : GitTree) : String :=
  t.root ++ t.name

/-- Embeds the closure `convert_to_tree` of `list_tree` (mod.rs lines
306-318); `sid` abstracts the backend
`entry.to_object(&self.repo).map(|o| o.get_short_id()).unwrap_or_default()`. -/
def convertToTree (sid : Nat → String) (e : TEnt) (root : String) : GitTree :=
  { filemode := e.filemode
    id := e.id
    kind := e.kind
    name := e.name
    root := root
    short_id := sid e.id }

/-- Embeds the closure `collect_tree` of `list_tree` (mod.rs lines
319-323): one level of a resolved tree, every child tagged with `root`. -/
def collectTree (sid : Nat → String) (ts : List TEnt) (root : String) : List GitTree :=
  ts.map (fun e => convertToTree sid e root)

/-- Result of the visitor callback of `git2::Tree::walk`
(`TreeWalkResult::{Ok, Skip, Abort}`). -/
inductive TWRes : Type where
  | ok
  | skip
  | abort
deriving DecidableEq

/-- Outcome of a whole walk: completed, aborted by the callback, or
stopped by a backend failure while loading a subtree. In git2,
`Tree::walk` returns `Ok(())` exactly in the `done` case and `Err` in
the other two. -/
inductive WalkOut : Type where
  | done
  | aborted
  | failed
deriving DecidableEq

/-- Pre-order tree walk of `git2::Tree::walk(TreeWalkMode::PreOrder, cb)`
over an entry list: visits an entry (callback receives the parent path
prefix `pfx`, ending in "/" for non-root levels), then, for tree
entries not skipped or aborted, descends into the resolved subtree.
State `s` threads the data the Rust callback closure mutates. -/
def walkL (cb : String → TEnt → σ → TWRes × σ) (pfx : String) :
    List TEnt → σ → σ × WalkOut
  | [], s => (s, WalkOut.done)
  | TEnt.mk n i k fm sb :: rest, s =>
    match cb pfx (TEnt.mk n i k fm sb) s with
    | (TWRes.abort, s1) => (s1, WalkOut.aborted)
    | (TWRes.skip, s1) => walkL cb pfx rest s1
    | (TWRes.ok, s1) =>
      match k, sb with
      | some GitObjectType.tree, none => (s1, WalkOut.failed)
      | some GitObjectType.tree, some sub =>
        (match walkL cb (pfx ++ n ++ "/") sub s1 with
         | (s2, WalkOut.done) => walkL cb pfx rest s2
         | (s2, o) => (s2, o))
      | _, _ => walkL cb pfx rest s1

/-- Embeds the visitor closure passed to `root.walk` in `list_tree`
(mod.rs lines 329-347); `path` is the normalized query path. -/
def treeCb (sid : Nat → String) (path : String) :
    String → TEnt → List GitTree → TWRes × List GitTree :=
  fun root e vec =>
    let curr := root ++ e.name
    if path = curr then
      match e.kind with
      | some GitObjectType.tree =>
        (TWRes.abort,
          match e.sub with
          | some t => collectTree sid t (curr ++ "/")
          | none => vec)
      | _ => (TWRes.abort, vec ++ [convertToTree sid e root])
    else
      if e.kind = some GitObjectType.tree && !(strStartsWith path (curr ++ "/")) then
        (TWRes.skip, vec)
      else
        (TWRes.ok, vec)

/-- Embeds the body of `GitRepository::list_tree` (mod.rs lines 302-350)
from the point where the root tree has been resolved (`root` is the
entry list of `commit.tree()`; HEAD / commit / root-tree resolution are
backend pass-through). The walk `Result` is discarded by
`.unwrap_or_default()` in the source (line 348), so from here the
function always produces a value; see `listTree` below for the
`Except`-typed wrapper. -/
def listTreeVec (sid : Nat → String) (root : List TEnt) (path0 : String) : List GitTree :=
  let path := stripSuffixSlash path0
  if path = "" then collectTree sid root ""
  else (walkL (treeCb sid path) "" root []).1

/-- Outcome of the walk performed by `list_tree` (what the discarded
`Result` of `root.walk(...)` reports): `done` for a completed walk,
`aborted` for a callback abort, `failed` for a backend failure while
descending. Empty-path queries never walk. -/
def listTreeWalkOut (sid : Nat → String) (root : List TEnt) (path0 : String) : WalkOut :=
  let path := stripSuffixSlash path0
  if path = "" then WalkOut.done
  else (walkL (treeCb sid path) "" root []).2

/-! ## Error taxonomy (src/wit/src/service/git/error.rs) -/

/-- The `git2::ErrorClass` values distinguished by the source
(`Odb`, `Os`, `Repository` appear in match arms); every other class is
matched only by wildcards and is represented by a sample of further
constructors. -/
inductive ErrClass : Type where
  | odb
  | os
  | repository
  | reference
  | object
  | invalid
  | config
  | net
deriving DecidableEq

/-- The `git2::ErrorCode` values distinguished by the source
(`NotFound` appears in match arms); other codes are matched only by
wildcards and are represented by a sample of further constructors. -/
inductive ErrCode : Type where
  | notFound
  | genericError
  | exists
  | ambiguous
  | auth
deriving DecidableEq

/-- Debug rendering of an error class (Rust `{:?}`). -/
def ErrClass.debugStr : ErrClass → String
  | .odb => "Odb"
  | .os => "Os"
  | .repository => "Repository"
  | .reference => "Reference"
  | .object => "Object"
  | .invalid => "Invalid"
  | .config => "Config"
  | .net => "Net"

/-- Debug rendering of an error code (Rust `{:?}`). -/
def ErrCode.debugStr : ErrCode → String
  | .notFound => "NotFound"
  | .genericError => "GenericError"
  | .exists => "Exists"
  | .ambiguous => "Ambiguous"
  | .auth => "Auth"

/-- A backend `git2::Error`: its class, code and message. -/
structure Git2Error where
  cls : ErrClass
  code : ErrCode
  message : String
deriving DecidableEq

/-- GitError from error.rs. The `RepositoryNotFound` payload
(`Box<Path>`) is modelled as the path string. -/
inductive GitError : Type where
  | objectNotFound : String → GitError
  | repositoryNotFound : String → GitError
  | unhandled : String → GitError
deriving DecidableEq

/-- Embeds `impl From<git2::Error> for GitError` (error.rs lines 26-38):
`(Odb, NotFound)` maps to `ObjectNotFound(message)`, everything else to
`Unhandled("Unhandled {class:?} {code:?}: {message}")`. -/
def gitErrorFrom (e : Git2Error) : GitError :=
  match e.cls, e.code with
  | ErrClass.odb, ErrCode.notFound => GitError.objectNotFound e.message
  | c, k =>
    GitError.unhandled
      ("Unhandled " ++ c.debugStr ++ " " ++ k.debugStr ++ ": " ++ e.message)

/-- The `Except`-typed form of `list_tree`: after the root tree is
resolved the source can no longer return `Err` — the walk `Result`
(including a mid-walk backend failure) is swallowed by
`.unwrap_or_default()` — so this is always `Except.ok`. -/
def listTree (sid : Nat → String) (root : List TEnt) (path0 : String) :
    Except GitError (List GitTree) :=
  Except.ok (listTreeVec sid root path0)

/-! ## get_blob (mod.rs lines 126-140) -/

/-- Backend blob record (`git2::Blob`): id, binary classification
(`is_binary`), raw content bytes, size. -/
structure RawBlob where
  id : Nat
  isBinary : Bool
  content : List Nat
  size : Nat
deriving DecidableEq

/-- GitBlobContent from model.rs: binary keeps the raw bytes, text goes
through the `MaybeLossyUtf8` conversion (whose value is represented by
its UTF-8 bytes). -/
inductive GitBlobContent : Type where
  | binary : List Nat → GitBlobContent
  | text : List Nat → GitBlobContent
deriving DecidableEq

/-- GitBlob from model.rs. -/
structure GitBlob where
  content : GitBlobContent
  id : Nat
  is_binary : Bool
  short_id : String
  size : Nat
deriving DecidableEq

/-- Embeds `GitRepository::get_blob` (mod.rs lines 126-140).
`findBlob` is the backend `Repository::find_blob`; `sid` the backend
short-id lookup. The outer `Option` models a panic: the text branch
runs the panicking `MaybeLossyUtf8` conversion on the content bytes.
The error path applies the `From<git2::Error>` mapping via `?`. -/
def getBlob (findBlob : Nat → Except Git2Error RawBlob) (sid : Nat → String) (oid : Nat) :
    Option (Except GitError GitBlob) :=
  match findBlob oid with
  | Except.error e => some (Except.error (gitErrorFrom e))
  | Except.ok b =>
    match
      (if b.isBinary then some (GitBlobContent.binary b.content)
       else (maybeLossyUtf8FromBytes b.content).map GitBlobContent.text) with
    | none => none
    | some c =>
      some (Except.ok
        { content := c
          id := b.id
          is_binary := b.isBinary
          short_id := sid b.id
          size := b.size })

/-! ## open (mod.rs lines 352-364) -/

/-- Embeds `GitRepository::open`: `openRepo` is the backend
`Repository::open` (its success value is irrelevant here and modelled
as `Unit`). An `(Os | Repository, NotFound)` backend error becomes
`RepositoryNotFound` carrying the queried location; any other backend
error goes through the `From<git2::Error>` mapping. -/
def openGit (openRepo : String → Except Git2Error Unit) (path : String) :
    Except GitError Unit :=
  match openRepo path with
  | Except.ok _ => Except.ok ()
  | Except.error e =>
    Except.error
      (if (e.cls = ErrClass.os ∨ e.cls = ErrClass.repository) ∧ e.code = ErrCode.notFound
       then GitError.repositoryNotFound path
       else gitErrorFrom e)

/-! ## References and branches (mod.rs lines 38-53, 142-166, 255-268) -/

/-- GitReferenceType from model.rs. -/
inductive GitReferenceType : Type where
  | direct
  | symbolic
deriving DecidableEq

/-- Backend `git2::Reference` restricted to what the source reads:
name, shorthand, kind, its own `target()`, and the outcome of
`resolve()` (`none` = `resolve()` returned `Err`; `some t` =
`resolve()` succeeded and the `target()` of the resolved reference is `t`). -/
structure RefRec where
  name : String
  shorthand : String
  kind : Option GitReferenceType
  target : Option Nat
  resolved : Option (Option Nat)
deriving DecidableEq

/-- Embeds `impl IdGetter for Reference` (mod.rs lines 44-53):
`self.resolve().as_ref().unwrap_or(self).target().unwrap_or(Oid::zero())`.
The all-zero object id is modelled as `0`. -/
def refGetId (r : RefRec) : Nat :=
  match r.resolved with
  | none => r.target.getD 0
  | some t => t.getD 0

/-- GitReference from model.rs. -/
structure GitReference where
  kind : Option GitReferenceType
  name : String
  shorthand : String
  target : Nat
  target_short : String
deriving DecidableEq

/-- Embeds the per-reference body of `list_reference` (mod.rs lines
260-266); `sidRef` abstracts `Reference::get_short_id`
(peel-to-commit then short id, empty on failure). -/
def convertRef (sidRef : RefRec → String) (r : RefRec) : GitReference :=
  { kind := r.kind
    name := r.name
    shorthand := r.shorthand
    target := refGetId r
    target_short := sidRef r }

/-- Embeds `GitRepository::list_reference` (mod.rs lines 255-268) over
the backend reference iterator, whose items are `Result`s: `none`
models an `Err` item, dropped by `.flatten()`. -/
def listReference (sidRef : RefRec → String) (items : List (Option RefRec)) :
    List GitReference :=
  (items.filterMap id).map (convertRef sidRef)

/-- GitBranchType from model.rs. -/
inductive GitBranchType : Type where
  | local
  | remote
deriving DecidableEq

/-- Backend branch record as consumed by `list_branch`: the underlying
reference (`b.get()`), the branch shorthand (`b.name_bytes()`, `none`
modelling an `Err`), and the upstream branch if any (`b.upstream()`
returning `Err` is modelled as `none`). -/
structure BranchRec where
  ref : RefRec
  shorthand : Option String
  kind : GitBranchType
  upstream : Option (RefRec × Option String)
deriving DecidableEq

/-- GitUpstream from model.rs. -/
structure GitUpstream where
  name : String
  shorthand : String
  target : Nat
  target_short : String
deriving DecidableEq

/-- GitBranch from model.rs. -/
structure GitBranch where
  kind : GitBranchType
  name : String
  shorthand : String
  target : Nat
  target_short : String
  upstream : Option GitUpstream
deriving DecidableEq

/-- Embeds the per-branch body of `list_branch` (mod.rs lines 147-164);
`sidRef` abstracts the short-id lookups. `Branch::get_id` is
`self.get().get_id()`, i.e. `refGetId` on the underlying reference. -/
def convertBranch (sidRef : RefRec → String) (b : BranchRec) : GitBranch :=
  { kind := b.kind
    name := b.ref.name
    shorthand := b.shorthand.getD ""
    target := refGetId b.ref
    target_short := sidRef b.ref
    upstream :=
      b.upstream.map (fun u =>
        { name := u.1.name
          shorthand := u.2.getD ""
          target := refGetId u.1
          target_short := sidRef u.1 }) }

/-- Embeds `GitRepository::list_branch` (mod.rs lines 142-166) over the
backend branch iterator (items are `Result`s; `none` models an `Err`
item dropped by `.flatten()`). -/
def listBranch (sidRef : RefRec → String) (items : List (Option BranchRec)) :
    List GitBranch :=
  (items.filterMap id).map (convertBranch sidRef)

/-! ## Specification-side helpers for stating the tree claims -/

/-- Size measure of a tree forest, used for induction over walks. -/
def sizeL : List TEnt → Nat
  | [] => 0
  | TEnt.mk _ _ _ _ sb :: rest =>
    1 + (match sb with
        | some sub => sizeL sub
        | none => 0) + sizeL rest

/-- Names of the entries of one tree level. -/
def namesOf (es : List TEnt) : List String :=
  es.map TEnt.name

/-- Well-formedness of a tree source, the data-model invariants of the
spec (git guarantees them for real trees): within each level entry
names are distinct, non-empty and contain no '/', every tree-kind entry
resolves to a well-formed subtree, and only tree-kind entries carry a
subtree. -/
def wfL : List TEnt → Bool
  | [] => true
  | TEnt.mk n _ k _ sb :: rest =>
    (n != "") && !(strContainsChar n '/') && !((namesOf rest).contains n) &&
    (match k, sb with
     | some GitObjectType.tree, some sub => wfL sub
     | some GitObjectType.tree, none => false
     | _, some _ => false
     | _, none => true) &&
    wfL rest

/-- Full paths of every entry of a forest (each entry contributes
`pfx + name`, tree entries also their resolved descendants). -/
def allPathsL (pfx : String) : List TEnt → List String
  | [] => []
  | TEnt.mk n _ _ _ sb :: rest =>
    (pfx ++ n) ::
      ((match sb with
        | some sub => allPathsL (pfx ++ n ++ "/") sub
        | none => []) ++ allPathsL pfx rest)

/-- Locating the entry whose full path is `pfx` followed by the joined
segment list, walking one segment per level (always the first entry of
a level bearing the segment name; unambiguous for well-formed trees).
Returns the walk prefix of the parent level of the entry together with the
entry. -/
def findSegs (pfx : String) : List TEnt → List String → Option (String × TEnt)
  | _, [] => none
  | [], _ :: _ => none
  | TEnt.mk n i k fm sb :: rest, s1 :: srest =>
    if n = s1 then
      match srest with
      | [] => some (pfx, TEnt.mk n i k fm sb)
      | _ :: _ =>
        match k, sb with
        | some GitObjectType.tree, some sub => findSegs (pfx ++ n ++ "/") sub srest
        | _, _ => none
    else
      findSegs pfx rest (s1 :: srest)

/-- The state produced by the `list_tree` visitor at its match, as a
function of the matched entry (tree: the resolved children rooted at
`path + "/"`, or the untouched state when resolution fails; non-tree:
the entry itself appended, rooted at the parent prefix `p`). -/
def matchVal (sid : Nat → String) (path p : String) (e : TEnt) (s : List GitTree) :
    List GitTree :=
  match e.kind with
  | some GitObjectType.tree =>
    match e.sub with
    | some t => collectTree sid t (path ++ "/")
    | none => s
  | _ => s ++ [convertToTree sid e p]

/-! ## Concrete fixtures used by witnesses and counterexamples -/

/-- Trivial short-id oracle used in concrete instantiations. -/
def sid0 : Nat → String :=
  fun _ => ""

/-- An index entry with the given path and zeroed metadata. -/
def sampleIndexEntry (p : String) : IndexEntry :=
  { ctime := 0, file_size := 0, gid := 0, id := 0, mode := 0, mtime := 0, uid := 0, path := p }

/-- The libgit2 odb not-found error payload. -/
def odbNotFoundErr : Git2Error :=
  { cls := ErrClass.odb, code := ErrCode.notFound, message := "object not found" }

/-- The libgit2 os-class not-found error payload. -/
def osNotFoundErr : Git2Error :=
  { cls := ErrClass.os, code := ErrCode.notFound, message := "could not find repository" }

/-- A backend object store holding exactly one blob, at id 1; every
other id yields the libgit2 odb not-found error. -/
def findBlob0 : Nat → Except Git2Error RawBlob :=
  fun i =>
    if i = 1 then Except.ok { id := 1, isBinary := true, content := [0], size := 1 }
    else Except.error odbNotFoundErr

/-- Membership oracle matching `findBlob0`. -/
def storeB0 : Nat → Bool :=
  fun i => decide (i = 1)

/-- A backend opener that finds no repository anywhere. -/
def openRepo0 : String → Except Git2Error Unit :=
  fun _ => Except.error osNotFoundErr

/-- Trivial reference short-id oracle. -/
def sidRef0 : RefRec → String :=
  fun _ => ""

/-- A symbolic reference whose resolution fails and that has no direct
target of its own. -/
def refBroken : RefRec :=
  { name := "refs/heads/broken", shorthand := "broken", kind := some GitReferenceType.symbolic,
    target := none, resolved := none }

/-- A local branch over `refBroken` with no upstream. -/
def branchBroken : BranchRec :=
  { ref := refBroken, shorthand := some "broken", kind := GitBranchType.local,
    upstream := none }

/-! # Theorems -/

/-! ## Lemmas about the string primitives -/

theorem splitCharList_ne_nil (sep : Char) (l : List Char) : splitCharList sep l ≠ [] := by
  cases l with
  | nil => simp [splitCharList]
  | cons c cs =>
    simp only [splitCharList]
    rcases h : splitCharList sep cs with _ | ⟨g, gs⟩
    · simp
    · by_cases hc : c = sep <;> simp [hc]

theorem strSplit_ne_nil (sep : Char) (s : String) : strSplit sep s ≠ [] := by
  simp [strSplit, splitCharList_ne_nil]

theorem splitCharList_sep_append (sep : Char) (a b : List Char) :
    splitCharList sep (a ++ sep :: b) = splitCharList sep a ++ splitCharList sep b := by
  induction a with
  | nil =>
    simp only [List.nil_append, splitCharList]
    cases h : splitCharList sep b with
    | nil => exact absurd h (splitCharList_ne_nil sep b)
    | cons g gs => simp
  | cons c cs ih =>
    simp only [List.cons_append, splitCharList]
    have ih2 : splitCharList sep (cs.append (sep :: b)) =
        splitCharList sep cs ++ splitCharList sep b := ih
    rw [ih2]
    cases h : splitCharList sep cs with
    | nil => exact absurd h (splitCharList_ne_nil sep cs)
    | cons g gs =>
      simp only [List.cons_append]
      by_cases hc : c = sep <;> simp [hc]

theorem mem_splitCharList_not_mem (sep : Char) (l : List Char) :
    ∀ x ∈ splitCharList sep l, sep ∉ x := by
  induction l with
  | nil => simp [splitCharList]
  | cons c cs ih =>
    simp only [splitCharList]
    cases h : splitCharList sep cs with
    | nil => exact absurd h (splitCharList_ne_nil sep cs)
    | cons g gs =>
      have hg : sep ∉ g := ih g (by rw [h]; exact List.mem_cons_self g gs)
      have hgs : ∀ x ∈ gs, sep ∉ x := fun x hx =>
        ih x (by rw [h]; exact List.mem_cons_of_mem g hx)
      by_cases hc : c = sep
      · simp only [if_pos hc]
        intro x hx
        simp only [List.mem_cons] at hx
        rcases hx with hx | hx | hx
        · simp [hx]
        · exact hx ▸ hg
        · exact hgs x hx
      · simp only [if_neg hc]
        intro x hx
        simp only [List.mem_cons] at hx
        rcases hx with hx | hx
        · subst hx
          simp only [List.mem_cons, not_or]
          exact ⟨fun h2 => hc h2.symm, hg⟩
        · exact hgs x hx

theorem splitCharList_of_not_mem (sep : Char) (l : List Char) (h : sep ∉ l) :
    splitCharList sep l = [l] := by
  induction l with
  | nil => simp [splitCharList]
  | cons c cs ih =>
    have hc : c ≠ sep := fun hc => h (hc ▸ List.mem_cons_self c cs)
    have hcs : sep ∉ cs := fun hm => h (List.mem_cons_of_mem c hm)
    simp [splitCharList, ih hcs, fun hc2 => hc hc2]

theorem mk_append (a b : List Char) : String.mk a ++ String.mk b = String.mk (a ++ b) := rfl

theorem string_eq_iff_data (s t : String) : s = t ↔ s.data = t.data :=
  ⟨congrArg String.data, String.ext⟩

theorem string_eq_empty_iff (s : String) : s = "" ↔ s.data = [] := by
  rw [string_eq_iff_data]

theorem joinWith_cons_cons (sep : Char) (x y : String) (rest : List String) :
    joinWith sep (x :: y :: rest) = x ++ String.mk [sep] ++ joinWith sep (y :: rest) := rfl

theorem joinWith_map_mk_cons (sep : Char) (c : Char) (g : List Char) (rest : List String) :
    joinWith sep (String.mk (c :: g) :: rest) =
      String.mk [c] ++ joinWith sep (String.mk g :: rest) := by
  cases rest with
  | nil => rfl
  | cons h t =>
    rw [joinWith_cons_cons, joinWith_cons_cons, ← String.append_assoc, ← String.append_assoc]
    simp [mk_append]

theorem joinWith_splitCharList (sep : Char) (l : List Char) :
    joinWith sep ((splitCharList sep l).map (fun x => String.mk x)) = String.mk l := by
  induction l with
  | nil => rfl
  | cons c cs ih =>
    simp only [splitCharList]
    rcases h : splitCharList sep cs with _ | ⟨g, gs⟩
    · exact absurd h (splitCharList_ne_nil sep cs)
    · rw [h] at ih
      by_cases hc : c = sep
      · simp only [if_pos hc, List.map_cons] at ih ⊢
        rw [joinWith_cons_cons, ih, hc]
        rfl
      · simp only [if_neg hc, List.map_cons] at ih ⊢
        rw [joinWith_map_mk_cons, ih]
        rfl

theorem joinWith_strSplit (sep : Char) (s : String) : joinWith sep (strSplit sep s) = s := by
  have h := joinWith_splitCharList sep s.data
  simpa [strSplit] using h

theorem strContainsChar_eq_false_iff (s : String) (c : Char) :
    strContainsChar s c = false ↔ c ∉ s.data := by
  simp [strContainsChar]

theorem strSplit_slash_append (a b : String) :
    strSplit '/' (a ++ "/" ++ b) = strSplit '/' a ++ strSplit '/' b := by
  have hdata : (a ++ "/" ++ b).data = a.data ++ '/' :: b.data := by
    rw [String.data_append, String.data_append]
    simp
  simp only [strSplit, hdata, splitCharList_sep_append, List.map_append]

theorem strSplit_of_not_contains (sep : Char) (s : String)
    (h : strContainsChar s sep = false) : strSplit sep s = [s] := by
  rw [strContainsChar_eq_false_iff] at h
  simp [strSplit, splitCharList_of_not_mem sep s.data h]

theorem mem_strSplit_not_contains (sep : Char) (s : String) :
    ∀ x ∈ strSplit sep s, strContainsChar x sep = false := by
  intro x hx
  simp only [strSplit, List.mem_map] at hx
  obtain ⟨l, hl, rfl⟩ := hx
  simp only [strContainsChar]
  simp
  exact mem_splitCharList_not_mem sep s.data l hl

theorem strSplit_joinWith (sep : Char) (cs : List String) (hne : cs ≠ [])
    (hfree : ∀ x ∈ cs, strContainsChar x sep = false) :
    strSplit sep (joinWith sep cs) = cs := by
  induction cs with
  | nil => exact absurd rfl hne
  | cons x rest ih =>
    cases rest with
    | nil =>
      simp only [joinWith]
      exact strSplit_of_not_contains sep x (hfree x (List.mem_cons_self x []))
    | cons y t =>
      rw [joinWith_cons_cons]
      have hx : strSplit sep x = [x] :=
        strSplit_of_not_contains sep x (hfree x (List.mem_cons_self x (y :: t)))
      have hrest : strSplit sep (joinWith sep (y :: t)) = y :: t :=
        ih (by simp) (fun z hz => hfree z (List.mem_cons_of_mem x hz))
      have key : strSplit sep (x ++ String.mk [sep] ++ joinWith sep (y :: t)) =
          strSplit sep x ++ strSplit sep (joinWith sep (y :: t)) := by
        have hdata : (x ++ String.mk [sep] ++ joinWith sep (y :: t)).data =
            x.data ++ sep :: (joinWith sep (y :: t)).data := by
          rw [String.data_append, String.data_append]
          simp
        simp only [strSplit, hdata, splitCharList_sep_append, List.map_append]
      rw [key, hx, hrest]
      rfl

theorem joinSlash_strSplit (s : String) : joinSlash (strSplit '/' s) = s :=
  joinWith_strSplit '/' s

theorem strSplit_joinSlash (cs : List String) (hne : cs ≠ [])
    (hfree : ∀ x ∈ cs, strContainsChar x '/' = false) :
    strSplit '/' (joinSlash cs) = cs :=
  strSplit_joinWith '/' cs hne hfree

theorem strStartsWith_iff (s pre : String) :
    strStartsWith s pre = true ↔ ∃ t, s = pre ++ t := by
  constructor
  · intro h
    simp only [strStartsWith, List.isPrefixOf_iff_prefix] at h
    obtain ⟨t, ht⟩ := h
    exact ⟨String.mk t, String.ext (by rw [String.data_append]; exact ht.symm)⟩
  · rintro ⟨t, rfl⟩
    simp only [strStartsWith, List.isPrefixOf_iff_prefix, String.data_append]
    exact ⟨t.data, rfl⟩

theorem strStartsWith_append (pre t : String) : strStartsWith (pre ++ t) pre = true :=
  (strStartsWith_iff (pre ++ t) pre).2 ⟨t, rfl⟩

theorem strAppend_cancel_left {a b c : String} (h : a ++ b = a ++ c) : b = c := by
  rw [string_eq_iff_data, String.data_append, String.data_append] at h
  exact String.ext (List.append_cancel_left h)

theorem strAppend_eq_self_iff (a b : String) : a ++ b = a ↔ b = "" := by
  rw [string_eq_iff_data, String.data_append, string_eq_empty_iff]
  exact List.append_right_eq_self

theorem strAppend_slash_ne_self (a b : String) : a ++ "/" ++ b ≠ a := by
  intro h
  rw [String.append_assoc, strAppend_eq_self_iff, string_eq_empty_iff,
    String.data_append] at h
  simp at h

theorem strAppend_slash_ne_empty (a b : String) : a ++ "/" ++ b ≠ "" := by
  intro h
  rw [string_eq_empty_iff, String.data_append, String.data_append] at h
  simp at h

theorem joinWith_append (sep : Char) (as bs : List String) (ha : as ≠ []) (hb : bs ≠ []) :
    joinWith sep (as ++ bs) = joinWith sep as ++ String.mk [sep] ++ joinWith sep bs := by
  induction as with
  | nil => exact absurd rfl ha
  | cons x rest ih =>
    cases rest with
    | nil =>
      cases bs with
      | nil => exact absurd rfl hb
      | cons y t => rfl
    | cons y t =>
      have lhs : joinWith sep ((x :: y :: t) ++ bs) =
          x ++ String.mk [sep] ++ joinWith sep ((y :: t) ++ bs) := rfl
      rw [lhs, ih (List.cons_ne_nil y t), joinWith_cons_cons]
      simp [String.append_assoc]

theorem joinSlash_take_prefix (s : String) (k : Nat) (hk : 0 < k)
    (h : k < (strSplit '/' s).length) :
    strStartsWith s (joinSlash ((strSplit '/' s).take k) ++ "/") = true := by
  have hsplit := joinSlash_strSplit s
  have hdecomp : strSplit '/' s = (strSplit '/' s).take k ++ (strSplit '/' s).drop k :=
    (List.take_append_drop k (strSplit '/' s)).symm
  have htake_ne : (strSplit '/' s).take k ≠ [] := by
    have hlen : ((strSplit '/' s).take k).length = k := by
      rw [List.length_take]
      omega
    intro hnil
    rw [hnil] at hlen
    simp at hlen
    omega
  have hdrop_ne : (strSplit '/' s).drop k ≠ [] := by
    have hlen : ((strSplit '/' s).drop k).length = (strSplit '/' s).length - k := by
      simp
    intro hnil
    rw [hnil] at hlen
    simp at hlen
    omega
  have hjoin : joinSlash (strSplit '/' s) =
      joinSlash ((strSplit '/' s).take k) ++ "/" ++
        joinSlash ((strSplit '/' s).drop k) := by
    conv_lhs => rw [hdecomp]
    exact joinWith_append '/' _ _ htake_ne hdrop_ne
  rw [strStartsWith_iff]
  refine ⟨joinSlash ((strSplit '/' s).drop k), ?_⟩
  conv_lhs => rw [← hsplit]
  rw [hjoin, String.append_assoc]

theorem strSplitn_of_le (n : Nat) (sep : Char) (s : String) (hn : n ≠ 0)
    (h : (strSplit sep s).length ≤ n) : strSplitn n sep s = strSplit sep s := by
  simp [strSplitn, hn, h]

theorem strSplitn_of_gt (n : Nat) (sep : Char) (s : String) (hn : n ≠ 0)
    (h : n < (strSplit sep s).length) :
    strSplitn n sep s = (strSplit sep s).take (n - 1) ++
      [joinWith sep ((strSplit sep s).drop (n - 1))] := by
  simp [strSplitn, hn, Nat.not_le.mpr h]

theorem strSplitn_length (n : Nat) (sep : Char) (s : String) (hn : n ≠ 0) :
    (strSplitn n sep s).length = min (strSplit sep s).length n := by
  rcases le_or_lt (strSplit sep s).length n with h | h
  · rw [strSplitn_of_le n sep s hn h]
    omega
  · rw [strSplitn_of_gt n sep s hn h]
    simp [List.length_take]
    omega

theorem pathSegs_of_ne_empty (s : String) (h : s ≠ "") : pathSegs s = strSplit '/' s := by
  simp [pathSegs, h]

theorem queryDepth_eq_pathSegs_length (s : String) :
    queryDepth s = (pathSegs s).length := by
  by_cases h : s = "" <;> simp [queryDepth, pathSegs, h]

theorem strSplit_length_pos (sep : Char) (s : String) : 0 < (strSplit sep s).length :=
  List.length_pos.mpr (strSplit_ne_nil sep s)

theorem startsWith_slash_decomp (fp Q : String) (h : strStartsWith fp (Q ++ "/") = true) :
    ∃ t, fp = Q ++ "/" ++ t ∧ strSplit '/' fp = strSplit '/' Q ++ strSplit '/' t := by
  rw [strStartsWith_iff] at h
  obtain ⟨t, ht⟩ := h
  exact ⟨t, ht, by rw [ht]; exact strSplit_slash_append Q t⟩

theorem strSplitn_length_iff (d : Nat) (fp : String) :
    (strSplitn (d + 2) '/' fp).length = d + 1 ↔ (strSplit '/' fp).length = d + 1 := by
  rw [strSplitn_length (d + 2) '/' fp (by omega)]
  omega

theorem strSplitn_take_d (d : Nat) (fp : String) (h : d + 2 ≤ (strSplit '/' fp).length) :
    (strSplitn (d + 2) '/' fp).take (d + 1) = (strSplit '/' fp).take (d + 1) := by
  rcases eq_or_lt_of_le h with heq | hlt
  · rw [strSplitn_of_le (d + 2) '/' fp (by omega) (by omega)]
  · rw [strSplitn_of_gt (d + 2) '/' fp (by omega) (by omega)]
    have h1 : d + 2 - 1 = d + 1 := by omega
    rw [h1]
    rw [List.take_append_of_le_length (by rw [List.length_take]; omega), List.take_take,
      Nat.min_self]

theorem strSplitn_getD_d (d : Nat) (fp : String) (h : d + 2 ≤ (strSplit '/' fp).length) :
    (strSplitn (d + 2) '/' fp).getD d "" = (strSplit '/' fp).getD d "" := by
  rcases eq_or_lt_of_le h with heq | hlt
  · rw [strSplitn_of_le (d + 2) '/' fp (by omega) (by omega)]
  · rw [strSplitn_of_gt (d + 2) '/' fp (by omega) (by omega)]
    have h1 : d + 2 - 1 = d + 1 := by omega
    rw [h1]
    have hlen : ((strSplit '/' fp).take (d + 1)).length = d + 1 := by
      rw [List.length_take]
      omega
    have hd : d < d + 1 := by omega
    have hdL : d < (strSplit '/' fp).length := by omega
    simp [List.getD, List.getElem?_append, List.getElem?_take, hlen, hd,
      List.getElem?_eq_getElem, hdL]

theorem fullPath_entry_convert (sid : Nat → String) (e : IndexEntry) (p : String) :
    (GitIndex.entry (convertToIndexEntry sid e p)).fullPath = p := rfl

theorem fullPath_directory (d : GitIndexDirectory) :
    (GitIndex.directory d).fullPath = d.path := rfl

theorem pathSegs_eq_nil_iff (s : String) : pathSegs s = [] ↔ s = "" := by
  constructor
  · intro h
    by_contra hne
    rw [pathSegs_of_ne_empty s hne] at h
    exact strSplit_ne_nil '/' s h
  · intro h
    simp [pathSegs, h]

theorem listIndexGo_nil (sid : Nat → String) (Q : String) (d : Nat) (seen : List String) :
    listIndexGo sid Q d [] seen = [] := rfl

theorem listIndexGo_cons (sid : Nat → String) (Q : String) (d : Nat) (e : IndexEntry)
    (rest : List IndexEntry) (seen : List String) :
    listIndexGo sid Q d (e :: rest) seen =
      (if e.path = Q then
        GitIndex.entry (convertToIndexEntry sid e e.path) :: listIndexGo sid Q d rest seen
      else if Q = "" || strStartsWith e.path (Q ++ "/") then
        (if (strSplitn (d + 2) '/' e.path).length = d + 1 then
          GitIndex.entry (convertToIndexEntry sid e e.path) :: listIndexGo sid Q d rest seen
        else
          (if List.contains seen (joinSlash ((strSplitn (d + 2) '/' e.path).take (d + 1))) then
            listIndexGo sid Q d rest seen
          else
            GitIndex.directory
              { name := (strSplitn (d + 2) '/' e.path).getD d "",
                path := joinSlash ((strSplitn (d + 2) '/' e.path).take (d + 1)) } ::
              listIndexGo sid Q d rest
                (joinSlash ((strSplitn (d + 2) '/' e.path).take (d + 1)) :: seen)))
      else listIndexGo sid Q d rest seen) := rfl

theorem branch_split_decomp (Q fp : String)
    (hbr : Q = "" ∨ strStartsWith fp (Q ++ "/") = true) (hne : fp ≠ Q) :
    fp ≠ "" ∧
      ∃ rest, strSplit '/' fp = pathSegs Q ++ rest ∧ rest ≠ [] ∧
        (strSplit '/' fp).length = queryDepth Q + rest.length := by
  by_cases hQ : Q = ""
  · subst hQ
    refine ⟨hne, strSplit '/' fp, ?_, strSplit_ne_nil '/' fp, ?_⟩
    · simp [pathSegs]
    · simp [queryDepth]
  · rcases hbr with hbr | hbr
    · exact absurd hbr hQ
    · obtain ⟨t, hfp, hsplit⟩ := startsWith_slash_decomp fp Q hbr
      refine ⟨hfp ▸ strAppend_slash_ne_empty Q t, strSplit '/' t, ?_, strSplit_ne_nil '/' t, ?_⟩
      · rw [hsplit, pathSegs_of_ne_empty Q hQ]
      · rw [hsplit, queryDepth, if_neg hQ, List.length_append]

theorem strSplit_empty : strSplit '/' "" = [""] := rfl

theorem listIndexGo_child_segs (sid : Nat → String) (Q : String) (l : List IndexEntry) :
    ∀ seen x, x ∈ listIndexGo sid Q (queryDepth Q) l seen → x.fullPath ≠ Q →
      ∃ s, strContainsChar s '/' = false ∧ pathSegs x.fullPath = pathSegs Q ++ [s] := by
  induction l with
  | nil =>
    intro seen x hx _
    rw [listIndexGo_nil] at hx
    exact absurd hx (List.not_mem_nil x)
  | cons e rest ih =>
    intro seen x hx hne
    rw [listIndexGo_cons] at hx
    by_cases h1 : e.path = Q
    · rw [if_pos h1] at hx
      rcases List.mem_cons.mp hx with hx | hx
      · subst hx
        rw [fullPath_entry_convert] at hne
        exact absurd h1 hne
      · exact ih seen x hx hne
    · rw [if_neg h1] at hx
      by_cases h2 : (Q = "" || strStartsWith e.path (Q ++ "/")) = true
      · rw [if_pos h2] at hx
        have hbr : Q = "" ∨ strStartsWith e.path (Q ++ "/") = true := by
          simpa using h2
        obtain ⟨hfpne, rest0, hdecomp, hrne, hlen⟩ := branch_split_decomp Q e.path hbr h1
        have hdlen : (pathSegs Q).length = queryDepth Q := (queryDepth_eq_pathSegs_length Q).symm
        by_cases h3 : (strSplitn (queryDepth Q + 2) '/' e.path).length = queryDepth Q + 1
        · rw [if_pos h3] at hx
          have hL : (strSplit '/' e.path).length = queryDepth Q + 1 :=
            (strSplitn_length_iff (queryDepth Q) e.path).mp h3
          have hr1 : rest0.length = 1 := by omega
          obtain ⟨a, ha⟩ := List.length_eq_one.mp hr1
          rcases List.mem_cons.mp hx with hx | hx
          · subst hx
            rw [fullPath_entry_convert]
            refine ⟨a, ?_, ?_⟩
            · refine mem_strSplit_not_contains '/' e.path a ?_
              rw [hdecomp, ha]
              exact List.mem_append_right _ (List.mem_singleton.mpr rfl)
            · rw [pathSegs_of_ne_empty e.path hfpne, hdecomp, ha]
          · exact ih seen x hx hne
        · rw [if_neg h3] at hx
          have hLne : (strSplit '/' e.path).length ≠ queryDepth Q + 1 := fun hc =>
            h3 ((strSplitn_length_iff (queryDepth Q) e.path).mpr hc)
          have hrpos : 0 < rest0.length := List.length_pos.mpr hrne
          have hL2 : queryDepth Q + 2 ≤ (strSplit '/' e.path).length := by omega
          obtain ⟨a, rest2, ha⟩ : ∃ a rest2, rest0 = a :: rest2 := by
            cases rest0 with
            | nil => exact absurd rfl hrne
            | cons a r2 => exact ⟨a, r2, rfl⟩
          have htake : (strSplit '/' e.path).take (queryDepth Q + 1) = pathSegs Q ++ [a] := by
            rw [hdecomp, ha, ← hdlen, List.take_append]
            rfl
          have hdpath :
              joinSlash ((strSplitn (queryDepth Q + 2) '/' e.path).take (queryDepth Q + 1)) =
                joinSlash (pathSegs Q ++ [a]) := by
            rw [strSplitn_take_d (queryDepth Q) e.path hL2, htake]
          have hafree : strContainsChar a '/' = false := by
            refine mem_strSplit_not_contains '/' e.path a ?_
            rw [hdecomp, ha]
            exact List.mem_append_right _ (List.mem_cons_self a rest2)
          have hqfree : ∀ z ∈ pathSegs Q, strContainsChar z '/' = false := by
            intro z hz
            by_cases hQ : Q = ""
            · rw [hQ] at hz
              simp [pathSegs] at hz
            · rw [pathSegs_of_ne_empty Q hQ] at hz
              exact mem_strSplit_not_contains '/' Q z hz
          have hsplitd : strSplit '/' (joinSlash (pathSegs Q ++ [a])) = pathSegs Q ++ [a] := by
            refine strSplit_joinSlash (pathSegs Q ++ [a]) (by simp) ?_
            intro z hz
            rcases List.mem_append.mp hz with hz | hz
            · exact hqfree z hz
            · rw [List.mem_singleton.mp hz]
              exact hafree
          by_cases h4 :
              List.contains seen
                (joinSlash ((strSplitn (queryDepth Q + 2) '/' e.path).take (queryDepth Q + 1))) =
                true
          · rw [if_pos h4] at hx
            exact ih seen x hx hne
          rw [if_neg h4] at hx
          rcases List.mem_cons.mp hx with hx | hx
          · subst hx
            rw [fullPath_directory] at hne ⊢
            simp only at hne ⊢
            rw [hdpath] at hne ⊢
            by_cases hdz : joinSlash (pathSegs Q ++ [a]) = ""
            · exfalso
              have hz2 : strSplit '/' "" = pathSegs Q ++ [a] := by
                rw [← hdz, hsplitd]
              rw [strSplit_empty] at hz2
              have hq0 : pathSegs Q = [] ∧ a = "" := by
                cases hps : pathSegs Q with
                | nil =>
                  rw [hps] at hz2
                  have ha2 : [""] = [a] := by simpa using hz2
                  exact ⟨rfl, (List.singleton_injective (congrArg id ha2)).symm⟩
                | cons h t =>
                  exfalso
                  rw [hps] at hz2
                  simp at hz2
              have hQempty : Q = "" := (pathSegs_eq_nil_iff Q).mp hq0.1
              apply hne
              rw [hq0.1, hq0.2, hQempty]
              rfl
            · refine ⟨a, hafree, ?_⟩
              rw [pathSegs_of_ne_empty _ hdz, hsplitd]
          · exact ih _ x hx hne
      · rw [if_neg h2] at hx
        exact ih seen x hx hne

theorem listIndexGo_provenance (sid : Nat → String) (Q : String) (l : List IndexEntry) :
    ∀ seen x, x ∈ listIndexGo sid Q (queryDepth Q) l seen →
      (∃ r ∈ l, x = GitIndex.entry (convertToIndexEntry sid r r.path)) ∨
      ((∃ d, x = GitIndex.directory d) ∧
        (∃ r ∈ l, strStartsWith r.path (x.fullPath ++ "/") = true) ∧ x.fullPath ∉ seen) := by
  induction l with
  | nil =>
    intro seen x hx
    rw [listIndexGo_nil] at hx
    exact absurd hx (List.not_mem_nil x)
  | cons e rest ih =>
    intro seen x hx
    rw [listIndexGo_cons] at hx
    have weaken :
        (∃ r ∈ rest, x = GitIndex.entry (convertToIndexEntry sid r r.path)) ∨
          ((∃ d, x = GitIndex.directory d) ∧
            (∃ r ∈ rest, strStartsWith r.path (x.fullPath ++ "/") = true) ∧ x.fullPath ∉ seen) →
        (∃ r ∈ e :: rest, x = GitIndex.entry (convertToIndexEntry sid r r.path)) ∨
          ((∃ d, x = GitIndex.directory d) ∧
            (∃ r ∈ e :: rest, strStartsWith r.path (x.fullPath ++ "/") = true) ∧
            x.fullPath ∉ seen) := by
      rintro (⟨r, hr, hxr⟩ | ⟨hd, ⟨r, hr, hrs⟩, hseen⟩)
      · exact Or.inl ⟨r, List.mem_cons_of_mem e hr, hxr⟩
      · exact Or.inr ⟨hd, ⟨r, List.mem_cons_of_mem e hr, hrs⟩, hseen⟩
    by_cases h1 : e.path = Q
    · rw [if_pos h1] at hx
      rcases List.mem_cons.mp hx with hx | hx
      · exact Or.inl ⟨e, List.mem_cons_self e rest, by rw [hx, h1]⟩
      · exact weaken (ih seen x hx)
    · rw [if_neg h1] at hx
      by_cases h2 : (Q = "" || strStartsWith e.path (Q ++ "/")) = true
      · rw [if_pos h2] at hx
        by_cases h3 : (strSplitn (queryDepth Q + 2) '/' e.path).length = queryDepth Q + 1
        · rw [if_pos h3] at hx
          rcases List.mem_cons.mp hx with hx | hx
          · exact Or.inl ⟨e, List.mem_cons_self e rest, hx⟩
          · exact weaken (ih seen x hx)
        · rw [if_neg h3] at hx
          have hbr : Q = "" ∨ strStartsWith e.path (Q ++ "/") = true := by
            simpa using h2
          obtain ⟨hfpne, rest0, hdecomp, hrne, hlen⟩ := branch_split_decomp Q e.path hbr h1
          have hLne : (strSplit '/' e.path).length ≠ queryDepth Q + 1 := fun hc =>
            h3 ((strSplitn_length_iff (queryDepth Q) e.path).mpr hc)
          have hrpos : 0 < rest0.length := List.length_pos.mpr hrne
          have hL2 : queryDepth Q + 2 ≤ (strSplit '/' e.path).length := by omega
          by_cases h4 :
              List.contains seen
                (joinSlash ((strSplitn (queryDepth Q + 2) '/' e.path).take (queryDepth Q + 1))) =
                true
          · rw [if_pos h4] at hx
            exact weaken (ih seen x hx)
          rw [if_neg h4] at hx
          rcases List.mem_cons.mp hx with hx | hx
          · refine Or.inr ⟨⟨_, hx⟩, ⟨e, List.mem_cons_self e rest, ?_⟩, ?_⟩
            · rw [hx, fullPath_directory]
              simp only
              rw [strSplitn_take_d (queryDepth Q) e.path hL2]
              exact joinSlash_take_prefix e.path (queryDepth Q + 1) (by omega) (by omega)
            · rw [hx, fullPath_directory]
              simp only
              simpa using h4
          · have htail := ih _ x hx
            rcases htail with ⟨r, hr, hxr⟩ | ⟨hd, ⟨r, hr, hrs⟩, hseen⟩
            · exact Or.inl ⟨r, List.mem_cons_of_mem e hr, hxr⟩
            · refine Or.inr ⟨hd, ⟨r, List.mem_cons_of_mem e hr, hrs⟩, ?_⟩
              intro hmem
              exact hseen (List.mem_cons_of_mem _ hmem)
      · rw [if_neg h2] at hx
        exact weaken (ih seen x hx)

theorem listIndex_eq (sid : Nat → String) (entries : List IndexEntry) (P : String) :
    listIndex sid entries P =
      listIndexGo sid (stripSuffixSlash P) (queryDepth (stripSuffixSlash P)) entries [] := rfl

/-- C2: for every flat index collection and every query path P, every entry
returned by list_index whose full path is not exactly (the normalized) P
has a full path whose first depth(P)+1 segments equal the segments of P followed
by exactly one more segment (its segment list is exactly the segments of P plus
one); an entry with exactly depth(P)+1 segments is emitted as a file entry
whose path is a source path, and a directory node comes only from a deeper
source entry extending the path of the node — strictly immediate children. -/
theorem C2_listIndex_depth_correct (sid : Nat → String) (entries : List IndexEntry)
    (P : String) (x : GitIndex) (hx : x ∈ listIndex sid entries P)
    (hne : x.fullPath ≠ stripSuffixSlash P) :
    (∃ s, (pathSegs x.fullPath).take (queryDepth (stripSuffixSlash P) + 1) =
        pathSegs (stripSuffixSlash P) ++ [s] ∧
      pathSegs x.fullPath = pathSegs (stripSuffixSlash P) ++ [s]) ∧
    ((∃ e, x = GitIndex.entry e) → ∃ r ∈ entries, r.path = x.fullPath) ∧
    ((∃ d, x = GitIndex.directory d) →
      ∃ r ∈ entries, strStartsWith r.path (x.fullPath ++ "/") = true) := by
  rw [listIndex_eq] at hx
  obtain ⟨s, hfree, hsegs⟩ :=
    listIndexGo_child_segs sid (stripSuffixSlash P) entries [] x hx hne
  have hprov := listIndexGo_provenance sid (stripSuffixSlash P) entries [] x hx
  refine ⟨⟨s, ?_, hsegs⟩, ?_, ?_⟩
  · rw [hsegs]
    refine List.take_of_length_le ?_
    rw [List.length_append, List.length_singleton, ← queryDepth_eq_pathSegs_length]
  · rintro ⟨e, rfl⟩
    rcases hprov with ⟨r, hr, hxr⟩ | ⟨⟨d, hd⟩, _, _⟩
    · refine ⟨r, hr, ?_⟩
      rw [hxr, fullPath_entry_convert]
    · exact absurd hd (by simp)
  · rintro ⟨d, rfl⟩
    rcases hprov with ⟨r, _, hxr⟩ | ⟨_, ⟨r, hr, hrs⟩, _⟩
    · exact absurd hxr (by simp)
    · exact ⟨r, hr, hrs⟩

theorem C2_listIndex_depth_correct_witness :
    ∃ s, (pathSegs (GitIndex.fullPath
        (GitIndex.directory { name := "b", path := "a/b" }))).take
        (queryDepth (stripSuffixSlash "a") + 1) = pathSegs (stripSuffixSlash "a") ++ [s] ∧
      pathSegs (GitIndex.fullPath (GitIndex.directory { name := "b", path := "a/b" })) =
        pathSegs (stripSuffixSlash "a") ++ [s] :=
  (C2_listIndex_depth_correct sid0 [sampleIndexEntry "a/b/c"] "a"
    (GitIndex.directory { name := "b", path := "a/b" }) (by decide) (by decide)).1

theorem listIndexGo_tail_cases (sid : Nat → String) (Q : String) (d : Nat) (e : IndexEntry)
    (rest : List IndexEntry) (seen : List String) :
    (∃ y seen2, listIndexGo sid Q d (e :: rest) seen =
        y :: listIndexGo sid Q d rest seen2) ∨
    (∃ seen2, listIndexGo sid Q d (e :: rest) seen = listIndexGo sid Q d rest seen2) := by
  rw [listIndexGo_cons]
  split_ifs
  · exact Or.inl ⟨_, seen, rfl⟩
  · exact Or.inl ⟨_, seen, rfl⟩
  · exact Or.inr ⟨seen, rfl⟩
  · exact Or.inl ⟨_, _, rfl⟩
  · exact Or.inr ⟨seen, rfl⟩

theorem listIndexGo_mem_of_mem_tail (sid : Nat → String) (Q : String) (d : Nat)
    (e : IndexEntry) (rest : List IndexEntry) (seen : List String) (x : GitIndex)
    (h : ∀ seen2, x ∈ listIndexGo sid Q d rest seen2) :
    x ∈ listIndexGo sid Q d (e :: rest) seen := by
  rcases listIndexGo_tail_cases sid Q d e rest seen with ⟨y, seen2, heq⟩ | ⟨seen2, heq⟩
  · rw [heq]
    exact List.mem_cons_of_mem y (h seen2)
  · rw [heq]
    exact h seen2

theorem listIndexGo_exact_mem (sid : Nat → String) (Q : String) (l : List IndexEntry) :
    ∀ seen, ∀ r ∈ l, r.path = Q →
      GitIndex.entry (convertToIndexEntry sid r Q) ∈ listIndexGo sid Q (queryDepth Q) l seen := by
  induction l with
  | nil =>
    intro seen r hr _
    exact absurd hr (List.not_mem_nil r)
  | cons e rest ih =>
    intro seen r hr hrQ
    rcases List.mem_cons.mp hr with hr | hr
    · subst hr
      rw [listIndexGo_cons, if_pos hrQ, ← hrQ]
      exact List.mem_cons_self _ _
    · exact listIndexGo_mem_of_mem_tail sid Q (queryDepth Q) e rest seen _
        (fun seen2 => ih seen2 r hr hrQ)

theorem listIndexGo_deeper_mem (sid : Nat → String) (Q : String) (l : List IndexEntry) :
    ∀ seen, ∀ r ∈ l, strStartsWith r.path (Q ++ "/") = true →
      (∃ x ∈ listIndexGo sid Q (queryDepth Q) l seen,
        x.fullPath = joinSlash ((strSplit '/' r.path).take (queryDepth Q + 1))) ∨
      joinSlash ((strSplit '/' r.path).take (queryDepth Q + 1)) ∈ seen := by
  induction l with
  | nil =>
    intro seen r hr _
    exact absurd hr (List.not_mem_nil r)
  | cons e rest ih =>
    intro seen r hr hst
    rcases List.mem_cons.mp hr with hr | hr
    · subst hr
      have h1 : r.path ≠ Q := by
        obtain ⟨t, ht⟩ := (strStartsWith_iff r.path (Q ++ "/")).mp hst
        rw [ht]
        exact strAppend_slash_ne_self Q t
      have hbr : Q = "" ∨ strStartsWith r.path (Q ++ "/") = true := Or.inr hst
      obtain ⟨hfpne, rest0, hdecomp, hrne, hlen⟩ := branch_split_decomp Q r.path hbr h1
      have h2 : (Q = "" || strStartsWith r.path (Q ++ "/")) = true := by
        simp [hst]
      rw [listIndexGo_cons, if_neg h1, if_pos h2]
      by_cases h3 : (strSplitn (queryDepth Q + 2) '/' r.path).length = queryDepth Q + 1
      · rw [if_pos h3]
        have hL : (strSplit '/' r.path).length = queryDepth Q + 1 :=
          (strSplitn_length_iff (queryDepth Q) r.path).mp h3
        refine Or.inl ⟨GitIndex.entry (convertToIndexEntry sid r r.path),
          List.mem_cons_self _ _, ?_⟩
        rw [fullPath_entry_convert, List.take_of_length_le (by omega), joinSlash_strSplit]
      · rw [if_neg h3]
        have hLne : (strSplit '/' r.path).length ≠ queryDepth Q + 1 := fun hc =>
          h3 ((strSplitn_length_iff (queryDepth Q) r.path).mpr hc)
        have hrpos : 0 < rest0.length := List.length_pos.mpr hrne
        have hL2 : queryDepth Q + 2 ≤ (strSplit '/' r.path).length := by omega
        have hdp : joinSlash ((strSplitn (queryDepth Q + 2) '/' r.path).take (queryDepth Q + 1)) =
            joinSlash ((strSplit '/' r.path).take (queryDepth Q + 1)) := by
          rw [strSplitn_take_d (queryDepth Q) r.path hL2]
        by_cases h4 :
            List.contains seen
              (joinSlash ((strSplitn (queryDepth Q + 2) '/' r.path).take (queryDepth Q + 1))) =
              true
        · rw [if_pos h4]
          refine Or.inr ?_
          rw [← hdp]
          simpa using h4
        · rw [if_neg h4]
          refine Or.inl ⟨GitIndex.directory
            { name := (strSplitn (queryDepth Q + 2) '/' r.path).getD (queryDepth Q) "",
              path := joinSlash
                ((strSplitn (queryDepth Q + 2) '/' r.path).take (queryDepth Q + 1)) },
            List.mem_cons_self _ _, ?_⟩
          rw [fullPath_directory]
          exact hdp
    · rw [listIndexGo_cons]
      split_ifs with h1 h2 h3 h4
      · rcases ih seen r hr hst with ⟨x, hx, hxp⟩ | hmem
        · exact Or.inl ⟨x, List.mem_cons_of_mem _ hx, hxp⟩
        · exact Or.inr hmem
      · rcases ih seen r hr hst with ⟨x, hx, hxp⟩ | hmem
        · exact Or.inl ⟨x, List.mem_cons_of_mem _ hx, hxp⟩
        · exact Or.inr hmem
      · exact ih seen r hr hst
      · rcases ih (joinSlash ((strSplitn (queryDepth Q + 2) '/' e.path).take (queryDepth Q + 1))
            :: seen) r hr hst with ⟨x, hx, hxp⟩ | hmem
        · exact Or.inl ⟨x, List.mem_cons_of_mem _ hx, hxp⟩
        · rcases List.mem_cons.mp hmem with hmem | hmem
          · refine Or.inl ⟨GitIndex.directory
              { name := (strSplitn (queryDepth Q + 2) '/' e.path).getD (queryDepth Q) "",
                path := joinSlash
                  ((strSplitn (queryDepth Q + 2) '/' e.path).take (queryDepth Q + 1)) },
              List.mem_cons_self _ _, ?_⟩
            rw [fullPath_directory, ← hmem]
          · exact Or.inr hmem
      · exact ih seen r hr hst

/-- C6: for every flat index collection containing an entry whose full
path equals the (normalized) query path P together with entries strictly
below P, list_index(P) returns the exact-match file entry and, for every
deeper entry, an element whose full path is the immediate child of P on
the path of that entry, all in the same result — the exact match does not
short-circuit the scan. -/
theorem C6_listIndex_exact_and_deeper (sid : Nat → String) (entries : List IndexEntry)
    (P : String) (hnorm : stripSuffixSlash P = P) :
    (∀ r ∈ entries, r.path = P →
      GitIndex.entry (convertToIndexEntry sid r P) ∈ listIndex sid entries P) ∧
    (∀ r ∈ entries, strStartsWith r.path (P ++ "/") = true →
      ∃ x ∈ listIndex sid entries P,
        x.fullPath = joinSlash ((strSplit '/' r.path).take (queryDepth P + 1))) := by
  have hrw : listIndex sid entries P = listIndexGo sid P (queryDepth P) entries [] := by
    rw [listIndex_eq, hnorm]
  constructor
  · intro r hr hrQ
    rw [hrw]
    exact listIndexGo_exact_mem sid P entries [] r hr hrQ
  · intro r hr hst
    rw [hrw]
    rcases listIndexGo_deeper_mem sid P entries [] r hr hst with h | h
    · exact h
    · exact absurd h (List.not_mem_nil _)

theorem C6_listIndex_exact_and_deeper_witness :
    GitIndex.entry (convertToIndexEntry sid0 (sampleIndexEntry "a") "a") ∈
      listIndex sid0 [sampleIndexEntry "a", sampleIndexEntry "a/b"] "a" ∧
    ∃ x ∈ listIndex sid0 [sampleIndexEntry "a", sampleIndexEntry "a/b"] "a",
      x.fullPath = joinSlash ((strSplit '/' (sampleIndexEntry "a/b").path).take
        (queryDepth "a" + 1)) :=
  ⟨(C6_listIndex_exact_and_deeper sid0 [sampleIndexEntry "a", sampleIndexEntry "a/b"] "a"
      (by decide)).1 (sampleIndexEntry "a") (by decide) (by decide),
    (C6_listIndex_exact_and_deeper sid0 [sampleIndexEntry "a", sampleIndexEntry "a/b"] "a"
      (by decide)).2 (sampleIndexEntry "a/b") (by decide) (by decide)⟩

theorem listIndexGo_nodup (sid : Nat → String) (Q : String) (l : List IndexEntry) :
    ∀ seen, (l.map IndexEntry.path).Nodup →
      (∀ p ∈ l.map IndexEntry.path, ∀ q ∈ l.map IndexEntry.path,
        strStartsWith q (p ++ "/") = false) →
      ((listIndexGo sid Q (queryDepth Q) l seen).map GitIndex.fullPath).Nodup := by
  induction l with
  | nil =>
    intro seen _ _
    rw [listIndexGo_nil]
    exact List.nodup_nil
  | cons e rest ih =>
    intro seen hnd hpre
    have hnd_rest : (rest.map IndexEntry.path).Nodup := (List.nodup_cons.mp (by simpa using hnd)).2
    have hnotmem : e.path ∉ rest.map IndexEntry.path := (List.nodup_cons.mp (by simpa using hnd)).1
    have hpre_rest : ∀ p ∈ rest.map IndexEntry.path, ∀ q ∈ rest.map IndexEntry.path,
        strStartsWith q (p ++ "/") = false := by
      intro p hp q hq
      exact hpre p (by simp at hp ⊢; exact Or.inr hp) q (by simp at hq ⊢; exact Or.inr hq)
    have hmem_e : e.path ∈ (e :: rest).map IndexEntry.path := by simp
    -- a file-entry head (full path e.path) cannot reappear in the tail output
    have head_file_fresh : ∀ seen2, e.path ∉
        (listIndexGo sid Q (queryDepth Q) rest seen2).map GitIndex.fullPath := by
      intro seen2 hmem
      obtain ⟨y, hy, hyp⟩ := List.mem_map.mp hmem
      rcases listIndexGo_provenance sid Q rest seen2 y hy with
        ⟨r, hr, hyr⟩ | ⟨_, ⟨r, hr, hrs⟩, _⟩
      · apply hnotmem
        rw [← hyp, hyr, fullPath_entry_convert]
        exact List.mem_map.mpr ⟨r, hr, rfl⟩
      · have := hpre e.path hmem_e r.path
          (by simp only [List.map_cons, List.mem_cons]; exact Or.inr (List.mem_map.mpr ⟨r, hr, rfl⟩))
        rw [hyp] at hrs
        rw [hrs] at this
        exact Bool.noConfusion this
    rw [listIndexGo_cons]
    by_cases h1 : e.path = Q
    · rw [if_pos h1]
      rw [List.map_cons, List.nodup_cons]
      exact ⟨by rw [fullPath_entry_convert]; exact head_file_fresh seen,
        ih seen hnd_rest hpre_rest⟩
    · rw [if_neg h1]
      by_cases h2 : (Q = "" || strStartsWith e.path (Q ++ "/")) = true
      · rw [if_pos h2]
        by_cases h3 : (strSplitn (queryDepth Q + 2) '/' e.path).length = queryDepth Q + 1
        · rw [if_pos h3]
          rw [List.map_cons, List.nodup_cons]
          exact ⟨by rw [fullPath_entry_convert]; exact head_file_fresh seen,
            ih seen hnd_rest hpre_rest⟩
        · rw [if_neg h3]
          have hbr : Q = "" ∨ strStartsWith e.path (Q ++ "/") = true := by
            simpa using h2
          obtain ⟨hfpne, rest0, hdecomp, hrne, hlen⟩ := branch_split_decomp Q e.path hbr h1
          have hLne : (strSplit '/' e.path).length ≠ queryDepth Q + 1 := fun hc =>
            h3 ((strSplitn_length_iff (queryDepth Q) e.path).mpr hc)
          have hrpos : 0 < rest0.length := List.length_pos.mpr hrne
          have hL2 : queryDepth Q + 2 ≤ (strSplit '/' e.path).length := by omega
          have hestarts : strStartsWith e.path
              (joinSlash ((strSplitn (queryDepth Q + 2) '/' e.path).take (queryDepth Q + 1)) ++
                "/") = true := by
            rw [strSplitn_take_d (queryDepth Q) e.path hL2]
            exact joinSlash_take_prefix e.path (queryDepth Q + 1) (by omega) (by omega)
          by_cases h4 :
              List.contains seen
                (joinSlash ((strSplitn (queryDepth Q + 2) '/' e.path).take (queryDepth Q + 1))) =
                true
          · rw [if_pos h4]
            exact ih seen hnd_rest hpre_rest
          · rw [if_neg h4]
            rw [List.map_cons, List.nodup_cons]
            refine ⟨?_, ih _ hnd_rest hpre_rest⟩
            rw [fullPath_directory]
            simp only
            intro hmem
            obtain ⟨y, hy, hyp⟩ := List.mem_map.mp hmem
            rcases listIndexGo_provenance sid Q rest _ y hy with
              ⟨r, hr, hyr⟩ | ⟨_, _, hseen⟩
            · have hrp : r.path =
                  joinSlash ((strSplitn (queryDepth Q + 2) '/' e.path).take (queryDepth Q + 1)) := by
                rw [← hyp, hyr, fullPath_entry_convert]
              have := hpre r.path
                (by simp only [List.map_cons, List.mem_cons]
                    exact Or.inr (List.mem_map.mpr ⟨r, hr, rfl⟩))
                e.path (by simp)
              rw [hrp] at this
              rw [this] at hestarts
              exact Bool.noConfusion hestarts
            · apply hseen
              rw [hyp]
              exact List.mem_cons_self _ _
      · rw [if_neg h2]
        exact ih seen hnd_rest hpre_rest

/-! ## Lemmas for the tree walk -/

theorem slashfree_ne_slash_append (n a b : String) (hfree : strContainsChar n '/' = false) :
    n ≠ a ++ "/" ++ b := by
  intro h
  rw [strContainsChar_eq_false_iff] at hfree
  apply hfree
  rw [h, String.data_append, String.data_append]
  simp

theorem cons_slash_inj (xa : List Char) (ya : List Char) :
    ∀ xb yb, '/' ∉ xa → '/' ∉ xb →
      xa ++ '/' :: ya = xb ++ '/' :: yb → xa = xb ∧ ya = yb := by
  induction xa with
  | nil =>
    intro xb yb _ hb h
    cases xb with
    | nil => simpa using h
    | cons d u =>
      exfalso
      simp only [List.nil_append, List.cons_append, List.cons.injEq] at h
      exact hb (h.1 ▸ List.mem_cons_self d u)
  | cons c t ih =>
    intro xb yb ha hb h
    cases xb with
    | nil =>
      exfalso
      simp only [List.cons_append, List.nil_append, List.cons.injEq] at h
      exact ha (h.1 ▸ List.mem_cons_self c t)
    | cons d u =>
      simp only [List.cons_append, List.cons.injEq] at h
      obtain ⟨hcd, hrest⟩ := h
      have ha2 : '/' ∉ t := fun hm => ha (List.mem_cons_of_mem c hm)
      have hb2 : '/' ∉ u := fun hm => hb (List.mem_cons_of_mem d hm)
      obtain ⟨h1, h2⟩ := ih u yb ha2 hb2 hrest
      exact ⟨by rw [hcd, h1], h2⟩

theorem slash_append_inj (a b x y : String) (ha : strContainsChar a '/' = false)
    (hb : strContainsChar b '/' = false) (h : a ++ "/" ++ x = b ++ "/" ++ y) :
    a = b := by
  rw [strContainsChar_eq_false_iff] at ha hb
  rw [string_eq_iff_data] at h
  rw [String.data_append, String.data_append, String.data_append, String.data_append] at h
  simp only [List.append_assoc] at h
  have := cons_slash_inj a.data x.data b.data y.data ha hb (by simpa using h)
  exact String.ext this.1

theorem strStartsWith_false_of (s pre : String) (h : ∀ t, s ≠ pre ++ t) :
    strStartsWith s pre = false := by
  cases hb : strStartsWith s pre with
  | false => rfl
  | true =>
    obtain ⟨t, ht⟩ := (strStartsWith_iff s pre).mp hb
    exact absurd ht (h t)

theorem joinSlash_cons_cons (x y : String) (t : List String) :
    joinSlash (x :: y :: t) = x ++ "/" ++ joinSlash (y :: t) := rfl

theorem wfL_cons_iff (n : String) (i : Nat) (k : Option GitObjectType) (fm : Int)
    (sb : Option (List TEnt)) (rest : List TEnt) :
    wfL (TEnt.mk n i k fm sb :: rest) = true ↔
      (n ≠ "" ∧ strContainsChar n '/' = false ∧ (namesOf rest).contains n = false ∧
        (match k, sb with
         | some GitObjectType.tree, some sub => wfL sub = true
         | some GitObjectType.tree, none => False
         | _, some _ => False
         | _, none => True) ∧
        wfL rest = true) := by
  rw [wfL.eq_def]
  simp only [Bool.and_eq_true, Bool.not_eq_true', bne_iff_ne]
  constructor
  · rintro ⟨⟨⟨⟨h1, h2⟩, h3⟩, h4⟩, h5⟩
    refine ⟨h1, h2, h3, ?_, h5⟩
    rcases k with _ | kk
    · cases sb with
      | none => trivial
      | some sub => simp at h4
    · cases kk <;> cases sb <;> simp_all
  · rintro ⟨h1, h2, h3, h4, h5⟩
    refine ⟨⟨⟨⟨h1, h2⟩, h3⟩, ?_⟩, h5⟩
    rcases k with _ | kk
    · cases sb with
      | none => rfl
      | some sub => exact absurd h4 (by simp)
    · cases kk <;> cases sb <;> simp_all

theorem walkL_nil {σ : Type} (cb : String → TEnt → σ → TWRes × σ) (pfx : String) (s : σ) :
    walkL cb pfx [] s = (s, WalkOut.done) := by
  simp [walkL]

theorem walkL_cons_abort {σ : Type} (cb : String → TEnt → σ → TWRes × σ) (pfx : String)
    (e : TEnt) (rest : List TEnt) (s s1 : σ) (h : cb pfx e s = (TWRes.abort, s1)) :
    walkL cb pfx (e :: rest) s = (s1, WalkOut.aborted) := by
  cases e with
  | mk n i k fm sb => simp [walkL, h]

theorem walkL_cons_skip {σ : Type} (cb : String → TEnt → σ → TWRes × σ) (pfx : String)
    (e : TEnt) (rest : List TEnt) (s s1 : σ) (h : cb pfx e s = (TWRes.skip, s1)) :
    walkL cb pfx (e :: rest) s = walkL cb pfx rest s1 := by
  cases e with
  | mk n i k fm sb => simp [walkL, h]

theorem walkL_cons_ok_nontree {σ : Type} (cb : String → TEnt → σ → TWRes × σ) (pfx : String)
    (e : TEnt) (rest : List TEnt) (s s1 : σ) (h : cb pfx e s = (TWRes.ok, s1))
    (hk : e.kind ≠ some GitObjectType.tree) :
    walkL cb pfx (e :: rest) s = walkL cb pfx rest s1 := by
  cases e with
  | mk n i k fm sb =>
    rcases k with _ | kk
    · simp [walkL, h]
    · cases kk <;> simp_all [walkL, TEnt.kind]

theorem walkL_cons_ok_tree_none {σ : Type} (cb : String → TEnt → σ → TWRes × σ) (pfx : String)
    (n : String) (i : Nat) (fm : Int) (rest : List TEnt) (s s1 : σ)
    (h : cb pfx (TEnt.mk n i (some GitObjectType.tree) fm none) s = (TWRes.ok, s1)) :
    walkL cb pfx (TEnt.mk n i (some GitObjectType.tree) fm none :: rest) s =
      (s1, WalkOut.failed) := by
  simp [walkL, h]

theorem walkL_cons_ok_tree_sub {σ : Type} (cb : String → TEnt → σ → TWRes × σ) (pfx : String)
    (n : String) (i : Nat) (fm : Int) (sub : List TEnt) (rest : List TEnt) (s s1 : σ)
    (h : cb pfx (TEnt.mk n i (some GitObjectType.tree) fm (some sub)) s = (TWRes.ok, s1)) :
    walkL cb pfx (TEnt.mk n i (some GitObjectType.tree) fm (some sub) :: rest) s =
      (match walkL cb (pfx ++ n ++ "/") sub s1 with
       | (s2, WalkOut.done) => walkL cb pfx rest s2
       | (s2, o) => (s2, o)) := by
  rcases hw : walkL cb (pfx ++ n ++ "/") sub s1 with ⟨s2, o⟩
  cases o <;> simp [walkL, h, hw]

theorem treeCb_match (sid : Nat → String) (path pfx : String) (e : TEnt)
    (vec : List GitTree) (h : path = pfx ++ e.name) :
    treeCb sid path pfx e vec = (TWRes.abort, matchVal sid path pfx e vec) := by
  cases e with
  | mk n i k fm sb =>
    rcases k with _ | kk
    · simp [treeCb, matchVal, TEnt.kind, TEnt.name, h]
    · cases kk <;> cases sb <;>
        simp [treeCb, matchVal, TEnt.kind, TEnt.name, TEnt.sub, h, collectTree]

theorem treeCb_skip (sid : Nat → String) (path pfx : String) (e : TEnt)
    (vec : List GitTree) (hne : path ≠ pfx ++ e.name)
    (hst : strStartsWith path (pfx ++ e.name ++ "/") = false) :
    treeCb sid path pfx e vec = (TWRes.skip, vec) ∨
      treeCb sid path pfx e vec = (TWRes.ok, vec) := by
  cases e with
  | mk n i k fm sb =>
    simp only [treeCb, TEnt.name] at *
    rw [if_neg hne]
    by_cases hk : k = some GitObjectType.tree
    · subst hk
      left
      simp [TEnt.kind, hst]
    · right
      rcases k with _ | kk
      · simp [TEnt.kind]
      · cases kk <;> simp_all [TEnt.kind]

theorem treeCb_ok_of_nontree (sid : Nat → String) (path pfx : String) (e : TEnt)
    (vec : List GitTree) (hne : path ≠ pfx ++ e.name)
    (hk : e.kind ≠ some GitObjectType.tree) :
    treeCb sid path pfx e vec = (TWRes.ok, vec) := by
  cases e with
  | mk n i k fm sb =>
    simp only [treeCb, TEnt.name] at hne ⊢
    rw [if_neg hne]
    rcases k with _ | kk
    · simp [TEnt.kind]
    · cases kk <;> simp_all [TEnt.kind]

theorem treeCb_ok_of_descend (sid : Nat → String) (path pfx : String) (e : TEnt)
    (vec : List GitTree) (hne : path ≠ pfx ++ e.name)
    (hst : strStartsWith path (pfx ++ e.name ++ "/") = true) :
    treeCb sid path pfx e vec = (TWRes.ok, vec) := by
  cases e with
  | mk n i k fm sb =>
    simp only [treeCb, TEnt.name] at *
    rw [if_neg hne]
    rcases k with _ | kk
    · simp [TEnt.kind]
    · cases kk <;> simp_all [TEnt.kind]

theorem findSegs_cons_ne (pfx n : String) (i : Nat) (k : Option GitObjectType) (fm : Int)
    (sb : Option (List TEnt)) (rest : List TEnt) (s1 : String) (srest : List String)
    (hn : n ≠ s1) :
    findSegs pfx (TEnt.mk n i k fm sb :: rest) (s1 :: srest) =
      findSegs pfx rest (s1 :: srest) := by
  cases srest with
  | nil =>
    rw [findSegs.eq_def]
    simp [hn]
  | cons a b =>
    rw [findSegs.eq_def]
    simp [hn]

theorem walkL_match (sid : Nat → String) (path : String) :
    ∀ (segs : List String) (pfx : String) (es : List TEnt) (s : List GitTree)
      (p : String) (e : TEnt),
      wfL es = true →
      (∀ z ∈ segs, strContainsChar z '/' = false) →
      path = pfx ++ joinSlash segs →
      findSegs pfx es segs = some (p, e) →
      walkL (treeCb sid path) pfx es s = (matchVal sid path p e s, WalkOut.aborted) := by
  intro segs
  induction segs with
  | nil =>
    intro pfx es s p e _ _ _ hf
    cases es with
    | nil => simp [findSegs] at hf
    | cons e0 rest =>
      cases e0 with
      | mk n i k fm sb => simp [findSegs] at hf
  | cons s1 srest ihseg =>
    intro pfx es s p e
    induction es with
    | nil =>
      intro _ _ _ hf
      simp [findSegs] at hf
    | cons e0 rest ihes =>
      intro hwf hfree hpath hf
      cases e0 with
      | mk n i k fm sb =>
        have parts := (wfL_cons_iff n i k fm sb rest).mp hwf
        have hwf2 : wfL rest = true := parts.2.2.2.2
        have hs1free : strContainsChar s1 '/' = false := hfree s1 (List.mem_cons_self s1 srest)
        by_cases hn : n = s1
        · cases srest with
          | nil =>
            have hf2 : (some (pfx, TEnt.mk n i k fm sb) : Option (String × TEnt)) =
                some (p, e) := by
              rw [← hf]
              simp [findSegs, hn]
            have hpe : (pfx, TEnt.mk n i k fm sb) = (p, e) := by
              injection hf2
            have hp : pfx = p := congrArg Prod.fst hpe
            have he : TEnt.mk n i k fm sb = e := congrArg Prod.snd hpe
            subst hp
            subst he
            have hcurr : path = pfx ++ (TEnt.mk n i k fm sb).name := by
              rw [hpath, hn]
              rfl
            exact walkL_cons_abort (treeCb sid path) pfx (TEnt.mk n i k fm sb) rest s _
              (treeCb_match sid path pfx (TEnt.mk n i k fm sb) s hcurr)
          | cons s2 t =>
            have hJ : joinSlash (s1 :: s2 :: t) = s1 ++ "/" ++ joinSlash (s2 :: t) :=
              joinSlash_cons_cons s1 s2 t
            have hne : path ≠ pfx ++ n := by
              rw [hpath, hJ]
              intro hcontra
              have hcancel : s1 ++ "/" ++ joinSlash (s2 :: t) = n :=
                strAppend_cancel_left hcontra
              exact slashfree_ne_slash_append n s1 (joinSlash (s2 :: t)) parts.2.1 hcancel.symm
            rcases k with _ | kk
            · cases sb with
              | none => simp [findSegs, hn] at hf
              | some sub => simp [findSegs, hn] at hf
            · cases kk with
              | tree =>
                cases sb with
                | none => simp [findSegs, hn] at hf
                | some sub =>
                  have hf2 : findSegs (pfx ++ n ++ "/") sub (s2 :: t) = some (p, e) := by
                    rw [← hf]
                    simp [findSegs, hn]
                  have hpath2 : path = (pfx ++ n ++ "/") ++ joinSlash (s2 :: t) := by
                    rw [hpath, hJ, hn]
                    simp [String.append_assoc]
                  have hst : strStartsWith path
                      ((pfx ++ (TEnt.mk n i (some GitObjectType.tree) fm
                        (some sub)).name) ++ "/") = true := by
                    rw [hpath2]
                    exact strStartsWith_append _ _
                  have hcb := treeCb_ok_of_descend sid path pfx
                    (TEnt.mk n i (some GitObjectType.tree) fm (some sub)) s hne hst
                  rw [walkL_cons_ok_tree_sub (treeCb sid path) pfx n i fm sub rest s s hcb]
                  have hsubwf : wfL sub = true := parts.2.2.2.1
                  have hsubfree : ∀ z ∈ s2 :: t, strContainsChar z '/' = false := fun z hz =>
                    hfree z (List.mem_cons_of_mem s1 hz)
                  rw [ihseg (pfx ++ n ++ "/") sub s p e hsubwf hsubfree hpath2 hf2]
              | blob => cases sb <;> simp [findSegs, hn] at hf
              | any => cases sb <;> simp [findSegs, hn] at hf
              | commit => cases sb <;> simp [findSegs, hn] at hf
              | tag => cases sb <;> simp [findSegs, hn] at hf
        · have hf2 : findSegs pfx rest (s1 :: srest) = some (p, e) := by
            rw [← hf, findSegs_cons_ne pfx n i k fm sb rest s1 srest hn]
          have hne : path ≠ pfx ++ n := by
            rw [hpath]
            intro hcontra
            have hjn : joinSlash (s1 :: srest) = n := strAppend_cancel_left hcontra
            cases srest with
            | nil =>
              have hsn : s1 = n := hjn
              exact hn hsn.symm
            | cons s2 t =>
              rw [joinSlash_cons_cons] at hjn
              exact slashfree_ne_slash_append n s1 (joinSlash (s2 :: t)) parts.2.1 hjn.symm
          have hstf : strStartsWith path (pfx ++ n ++ "/") = false := by
            refine strStartsWith_false_of path (pfx ++ n ++ "/") ?_
            intro t2 hcontra
            have hc2 : pfx ++ joinSlash (s1 :: srest) = pfx ++ (n ++ "/" ++ t2) := by
              rw [← hpath, hcontra]
              simp [String.append_assoc]
            have hjn : joinSlash (s1 :: srest) = n ++ "/" ++ t2 := strAppend_cancel_left hc2
            cases srest with
            | nil =>
              have hs1 : s1 = n ++ "/" ++ t2 := hjn
              exact slashfree_ne_slash_append s1 n t2 hs1free hs1
            | cons s2 t =>
              rw [joinSlash_cons_cons] at hjn
              exact hn (slash_append_inj n s1 t2 (joinSlash (s2 :: t)) parts.2.1 hs1free
                hjn.symm)
          by_cases hk : k = some GitObjectType.tree
          · subst hk
            have hcb : treeCb sid path pfx (TEnt.mk n i (some GitObjectType.tree) fm sb) s =
                (TWRes.skip, s) := by
              simp [treeCb, TEnt.name, TEnt.kind, hne, hstf]
            rw [walkL_cons_skip (treeCb sid path) pfx _ rest s s hcb]
            exact ihes hwf2 hfree hpath hf2
          · have hcb := treeCb_ok_of_nontree sid path pfx (TEnt.mk n i k fm sb) s hne
              (by simpa [TEnt.kind] using hk)
            rw [walkL_cons_ok_nontree (treeCb sid path) pfx _ rest s s hcb
              (by simpa [TEnt.kind] using hk)]
            exact ihes hwf2 hfree hpath hf2

theorem matchVal_nontree (sid : Nat → String) (path p : String) (e : TEnt)
    (s : List GitTree) (hkind : e.kind ≠ some GitObjectType.tree) :
    matchVal sid path p e s = s ++ [convertToTree sid e p] := by
  rcases hk : e.kind with _ | kk
  · simp [matchVal, hk]
  · cases kk <;> simp_all [matchVal]

theorem matchVal_tree (sid : Nat → String) (path p : String) (e : TEnt)
    (s : List GitTree) (ts : List TEnt) (hkind : e.kind = some GitObjectType.tree)
    (hsub : e.sub = some ts) :
    matchVal sid path p e s = collectTree sid ts (path ++ "/") := by
  simp [matchVal, hkind, hsub]

theorem listTreeVec_walk (sid : Nat → String) (root : List TEnt) (P : String)
    (hnorm : stripSuffixSlash P = P) (hP : P ≠ "") :
    listTreeVec sid root P = (walkL (treeCb sid P) "" root []).1 := by
  simp only [listTreeVec, hnorm, if_neg hP]

theorem listTreeWalkOut_walk (sid : Nat → String) (root : List TEnt) (P : String)
    (hnorm : stripSuffixSlash P = P) (hP : P ≠ "") :
    listTreeWalkOut sid root P = (walkL (treeCb sid P) "" root []).2 := by
  simp only [listTreeWalkOut, hnorm, if_neg hP]

theorem pathSegs_slashfree (P : String) :
    ∀ z ∈ pathSegs P, strContainsChar z '/' = false := by
  intro z hz
  by_cases hP : P = ""
  · rw [hP] at hz
    simp [pathSegs] at hz
  · rw [pathSegs_of_ne_empty P hP] at hz
    exact mem_strSplit_not_contains '/' P z hz

theorem path_eq_join_pathSegs (P : String) (hP : P ≠ "") :
    P = "" ++ joinSlash (pathSegs P) := by
  rw [pathSegs_of_ne_empty P hP, joinSlash_strSplit, String.empty_append]

/-- C4: for every tree and every non-empty normalized query path P that
exactly matches the full path of a non-tree entry, list_tree(P) returns
exactly that one entry with its root (the parent directory prefix)
unchanged, regardless of sibling entries, and the walk aborts at the
match. -/
theorem C4_listTree_blob_exact (sid : Nat → String) (root : List TEnt) (P : String)
    (p : String) (e : TEnt) (hwf : wfL root = true) (hnorm : stripSuffixSlash P = P)
    (hP : P ≠ "") (hfind : findSegs "" root (pathSegs P) = some (p, e))
    (hkind : e.kind ≠ some GitObjectType.tree) :
    listTree sid root P = Except.ok [convertToTree sid e p] ∧
    listTreeWalkOut sid root P = WalkOut.aborted := by
  have hw := walkL_match sid P (pathSegs P) "" root [] p e hwf (pathSegs_slashfree P)
    (path_eq_join_pathSegs P hP) hfind
  constructor
  · rw [listTree, listTreeVec_walk sid root P hnorm hP, hw,
      matchVal_nontree sid P p e [] hkind]
    rfl
  · rw [listTreeWalkOut_walk sid root P hnorm hP, hw]

theorem C4_listTree_blob_exact_witness :
    listTree sid0 [TEnt.mk "d" 1 (some GitObjectType.tree) 16384
        (some [TEnt.mk "f" 2 (some GitObjectType.blob) 33188 none]),
      TEnt.mk "g" 3 (some GitObjectType.blob) 33188 none] "d/f" =
      Except.ok [convertToTree sid0 (TEnt.mk "f" 2 (some GitObjectType.blob) 33188 none)
        "d/"] ∧
    listTreeWalkOut sid0 [TEnt.mk "d" 1 (some GitObjectType.tree) 16384
        (some [TEnt.mk "f" 2 (some GitObjectType.blob) 33188 none]),
      TEnt.mk "g" 3 (some GitObjectType.blob) 33188 none] "d/f" = WalkOut.aborted :=
  C4_listTree_blob_exact sid0 _ "d/f" "d/" (TEnt.mk "f" 2 (some GitObjectType.blob) 33188 none)
    (by simp [wfL, namesOf, strContainsChar, TEnt.name])
    (by decide) (by decide)
    (by rw [show pathSegs "d/f" = ["d", "f"] from by decide]
        simp [findSegs])
    (by simp [TEnt.kind])

/-- C5: for every tree and every non-empty normalized query path P that
exactly matches the full path of a subtree entry, list_tree(P) returns
exactly the immediate children of that subtree, each with root set to
P + "/", and the walk aborts at the match. -/
theorem C5_listTree_subtree_exact (sid : Nat → String) (root : List TEnt) (P : String)
    (p : String) (e : TEnt) (ts : List TEnt) (hwf : wfL root = true)
    (hnorm : stripSuffixSlash P = P) (hP : P ≠ "")
    (hfind : findSegs "" root (pathSegs P) = some (p, e))
    (hkind : e.kind = some GitObjectType.tree) (hsub : e.sub = some ts) :
    listTree sid root P = Except.ok (collectTree sid ts (P ++ "/")) ∧
    listTreeWalkOut sid root P = WalkOut.aborted := by
  have hw := walkL_match sid P (pathSegs P) "" root [] p e hwf (pathSegs_slashfree P)
    (path_eq_join_pathSegs P hP) hfind
  constructor
  · rw [listTree, listTreeVec_walk sid root P hnorm hP, hw,
      matchVal_tree sid P p e [] ts hkind hsub]
  · rw [listTreeWalkOut_walk sid root P hnorm hP, hw]

theorem C5_listTree_subtree_exact_witness :
    listTree sid0 [TEnt.mk "d" 1 (some GitObjectType.tree) 16384
        (some [TEnt.mk "f" 2 (some GitObjectType.blob) 33188 none]),
      TEnt.mk "g" 3 (some GitObjectType.blob) 33188 none] "d" =
      Except.ok (collectTree sid0 [TEnt.mk "f" 2 (some GitObjectType.blob) 33188 none]
        ("d" ++ "/")) ∧
    listTreeWalkOut sid0 [TEnt.mk "d" 1 (some GitObjectType.tree) 16384
        (some [TEnt.mk "f" 2 (some GitObjectType.blob) 33188 none]),
      TEnt.mk "g" 3 (some GitObjectType.blob) 33188 none] "d" = WalkOut.aborted :=
  C5_listTree_subtree_exact sid0 _ "d" ""
    (TEnt.mk "d" 1 (some GitObjectType.tree) 16384
      (some [TEnt.mk "f" 2 (some GitObjectType.blob) 33188 none]))
    [TEnt.mk "f" 2 (some GitObjectType.blob) 33188 none]
    (by simp [wfL, namesOf, strContainsChar, TEnt.name])
    (by decide) (by decide)
    (by rw [show pathSegs "d" = ["d"] from by decide]
        rw [findSegs.eq_def]
        simp)
    rfl rfl

theorem sizeL_cons (n : String) (i : Nat) (k : Option GitObjectType) (fm : Int)
    (sb : Option (List TEnt)) (rest : List TEnt) :
    sizeL (TEnt.mk n i k fm sb :: rest) =
      1 + (match sb with
          | some sub => sizeL sub
          | none => 0) + sizeL rest := by
  rw [sizeL.eq_def]

theorem allPathsL_cons (pfx n : String) (i : Nat) (k : Option GitObjectType) (fm : Int)
    (sb : Option (List TEnt)) (rest : List TEnt) :
    allPathsL pfx (TEnt.mk n i k fm sb :: rest) =
      (pfx ++ n) ::
        ((match sb with
          | some sub => allPathsL (pfx ++ n ++ "/") sub
          | none => []) ++ allPathsL pfx rest) := by
  rw [allPathsL.eq_def]

theorem walkL_noMatch (sid : Nat → String) (path : String) :
    ∀ (m : Nat) (es : List TEnt) (pfx : String) (s : List GitTree),
      sizeL es ≤ m → wfL es = true → path ∉ allPathsL pfx es →
      walkL (treeCb sid path) pfx es s = (s, WalkOut.done) := by
  intro m
  induction m with
  | zero =>
    intro es pfx s hsz hwf hnm
    cases es with
    | nil => exact walkL_nil _ _ _
    | cons e rest =>
      cases e with
      | mk n i k fm sb =>
        rw [sizeL_cons] at hsz
        omega
  | succ m ihm =>
    intro es pfx s hsz hwf hnm
    cases es with
    | nil => exact walkL_nil _ _ _
    | cons e rest =>
      cases e with
      | mk n i k fm sb =>
        have parts := (wfL_cons_iff n i k fm sb rest).mp hwf
        have hwfr : wfL rest = true := parts.2.2.2.2
        rw [sizeL_cons] at hsz
        have hszr : sizeL rest ≤ m := by omega
        rw [allPathsL_cons] at hnm
        simp only [List.mem_cons, List.mem_append, not_or] at hnm
        have hne : path ≠ pfx ++ n := hnm.1
        have hnm_rest : path ∉ allPathsL pfx rest := hnm.2.2
        by_cases hk : k = some GitObjectType.tree
        · subst hk
          cases hsb : sb with
          | none =>
            exfalso
            rw [hsb] at parts
            exact parts.2.2.2.1
          | some sub =>
            subst hsb
            have hwfsub : wfL sub = true := parts.2.2.2.1
            have hsz2 : 1 + sizeL sub + sizeL rest ≤ m + 1 := hsz
            have hszsub : sizeL sub ≤ m := by omega
            have hnm_sub : path ∉ allPathsL (pfx ++ n ++ "/") sub := hnm.2.1
            by_cases hst : strStartsWith path (pfx ++ n ++ "/") = true
            · have hcb := treeCb_ok_of_descend sid path pfx
                (TEnt.mk n i (some GitObjectType.tree) fm (some sub)) s hne hst
              rw [walkL_cons_ok_tree_sub (treeCb sid path) pfx n i fm sub rest s s hcb]
              rw [ihm sub (pfx ++ n ++ "/") s hszsub hwfsub hnm_sub]
              exact ihm rest pfx s hszr hwfr hnm_rest
            · have hstf : strStartsWith path (pfx ++ n ++ "/") = false :=
                Bool.eq_false_iff.mpr hst
              have hcb : treeCb sid path pfx
                  (TEnt.mk n i (some GitObjectType.tree) fm (some sub)) s =
                  (TWRes.skip, s) := by
                simp [treeCb, TEnt.name, TEnt.kind, hne, hstf]
              rw [walkL_cons_skip (treeCb sid path) pfx _ rest s s hcb]
              exact ihm rest pfx s hszr hwfr hnm_rest
        · have hcb := treeCb_ok_of_nontree sid path pfx (TEnt.mk n i k fm sb) s hne
            (by simpa [TEnt.kind] using hk)
          rw [walkL_cons_ok_nontree (treeCb sid path) pfx _ rest s s hcb
            (by simpa [TEnt.kind] using hk)]
          exact ihm rest pfx s hszr hwfr hnm_rest

theorem namesOf_cons (n : String) (i : Nat) (k : Option GitObjectType) (fm : Int)
    (sb : Option (List TEnt)) (rest : List TEnt) :
    namesOf (TEnt.mk n i k fm sb :: rest) = n :: namesOf rest := by
  simp [namesOf, TEnt.name]

theorem findSegs_name_mem (s1 : String) (srest : List String) :
    ∀ (es : List TEnt) (pfx : String) (x : String × TEnt),
      findSegs pfx es (s1 :: srest) = some x → s1 ∈ namesOf es := by
  intro es
  induction es with
  | nil =>
    intro pfx x hf
    rw [findSegs.eq_def] at hf
    simp at hf
  | cons e rest ih =>
    intro pfx x hf
    cases e with
    | mk n i k fm sb =>
      rw [namesOf_cons]
      by_cases hn : n = s1
      · rw [hn]
        exact List.mem_cons_self s1 _
      · rw [findSegs_cons_ne pfx n i k fm sb rest s1 srest hn] at hf
        exact List.mem_cons_of_mem n (ih pfx x hf)

theorem findSegs_cons_self_nil (pfx n : String) (i : Nat) (k : Option GitObjectType)
    (fm : Int) (sb : Option (List TEnt)) (rest : List TEnt) :
    findSegs pfx (TEnt.mk n i k fm sb :: rest) [n] = some (pfx, TEnt.mk n i k fm sb) := by
  rw [findSegs.eq_def]
  simp

theorem findSegs_cons_self_cons (pfx n : String) (i : Nat) (fm : Int) (sub : List TEnt)
    (rest : List TEnt) (s2 : String) (srest : List String) :
    findSegs pfx (TEnt.mk n i (some GitObjectType.tree) fm (some sub) :: rest)
        (n :: s2 :: srest) =
      findSegs (pfx ++ n ++ "/") sub (s2 :: srest) := by
  rw [findSegs.eq_def]
  simp

theorem pathSegs_singleton (n : String) (hne : n ≠ "")
    (hfree : strContainsChar n '/' = false) : pathSegs n = [n] := by
  rw [pathSegs_of_ne_empty n hne, strSplit_of_not_contains '/' n hfree]

theorem pathSegs_slash_cons (n r0 : String) (hfree : strContainsChar n '/' = false)
    (hr0 : r0 ≠ "") : pathSegs (n ++ "/" ++ r0) = n :: pathSegs r0 := by
  rw [pathSegs_of_ne_empty _ (strAppend_slash_ne_empty n r0), strSplit_slash_append,
    strSplit_of_not_contains '/' n hfree, pathSegs_of_ne_empty r0 hr0]
  rfl

theorem mem_allPathsL_findSegs (m : Nat) :
    ∀ (es : List TEnt) (pfx q : String), sizeL es ≤ m → wfL es = true →
      q ∈ allPathsL pfx es →
      ∃ r, q = pfx ++ r ∧ r ≠ "" ∧
        ∃ x, findSegs pfx es (pathSegs r) = some x := by
  induction m with
  | zero =>
    intro es pfx q hsz hwf hq
    cases es with
    | nil =>
      rw [allPathsL.eq_def] at hq
      exact absurd hq (List.not_mem_nil q)
    | cons e rest =>
      cases e with
      | mk n i k fm sb =>
        rw [sizeL_cons] at hsz
        omega
  | succ m ihm =>
    intro es pfx q hsz hwf hq
    cases es with
    | nil =>
      rw [allPathsL.eq_def] at hq
      exact absurd hq (List.not_mem_nil q)
    | cons e rest =>
      cases e with
      | mk n i k fm sb =>
        have parts := (wfL_cons_iff n i k fm sb rest).mp hwf
        have hwfr : wfL rest = true := parts.2.2.2.2
        rw [sizeL_cons] at hsz
        rw [allPathsL_cons] at hq
        rcases List.mem_cons.mp hq with hq | hq
        · refine ⟨n, hq, parts.1, (pfx, TEnt.mk n i k fm sb), ?_⟩
          rw [pathSegs_singleton n parts.1 parts.2.1]
          exact findSegs_cons_self_nil pfx n i k fm sb rest
        · rcases List.mem_append.mp hq with hq | hq
          · cases hsb : sb with
            | none =>
              rw [hsb] at hq
              exact absurd hq (List.not_mem_nil q)
            | some sub =>
              rw [hsb] at hq
              have hktree : k = some GitObjectType.tree := by
                rcases k with _ | kk
                · exfalso
                  rw [hsb] at parts
                  exact parts.2.2.2.1
                · cases kk with
                  | tree => rfl
                  | blob => exfalso; rw [hsb] at parts; exact parts.2.2.2.1
                  | any => exfalso; rw [hsb] at parts; exact parts.2.2.2.1
                  | commit => exfalso; rw [hsb] at parts; exact parts.2.2.2.1
                  | tag => exfalso; rw [hsb] at parts; exact parts.2.2.2.1
              subst hktree
              have hwfsub : wfL sub = true := by
                rw [hsb] at parts
                exact parts.2.2.2.1
              have hsz2 : 1 + sizeL sub + sizeL rest ≤ m + 1 := by
                rw [hsb] at hsz
                exact hsz
              obtain ⟨r0, hq0, hr0ne, x, hfs⟩ :=
                ihm sub (pfx ++ n ++ "/") q (by omega) hwfsub hq
              refine ⟨n ++ "/" ++ r0, ?_, strAppend_slash_ne_empty n r0, x, ?_⟩
              · rw [hq0]
                simp [String.append_assoc]
              · rw [pathSegs_slash_cons n r0 parts.2.1 hr0ne]
                have hsegs_ne : pathSegs r0 ≠ [] := fun hc => hr0ne ((pathSegs_eq_nil_iff r0).mp hc)
                cases hsegs : pathSegs r0 with
                | nil => exact absurd hsegs hsegs_ne
                | cons s2 srest =>
                  rw [findSegs_cons_self_cons pfx n i fm sub rest s2 srest]
                  rw [← hsegs]
                  exact hfs
          · obtain ⟨r0, hq0, hr0ne, x, hfs⟩ := ihm rest pfx q (by omega) hwfr hq
            refine ⟨r0, hq0, hr0ne, x, ?_⟩
            have hsegs_ne : pathSegs r0 ≠ [] := fun hc => hr0ne ((pathSegs_eq_nil_iff r0).mp hc)
            cases hsegs : pathSegs r0 with
            | nil => exact absurd hsegs hsegs_ne
            | cons s1 srest =>
              have hs1mem : s1 ∈ namesOf rest := by
                refine findSegs_name_mem s1 srest rest pfx x ?_
                rw [← hsegs]
                exact hfs
              have hns1 : n ≠ s1 := by
                intro hcontra
                have : n ∈ namesOf rest := hcontra ▸ hs1mem
                have hcont := parts.2.2.1
                simp at hcont
                exact hcont this
              rw [findSegs_cons_ne pfx n i k fm sb rest s1 srest hns1, ← hsegs]
              exact hfs

theorem treeCb_cases (sid : Nat → String) (path pfx : String) (e : TEnt)
    (vec : List GitTree) :
    treeCb sid path pfx e vec = (TWRes.abort, matchVal sid path pfx e vec) ∨
    treeCb sid path pfx e vec = (TWRes.skip, vec) ∨
    treeCb sid path pfx e vec = (TWRes.ok, vec) := by
  by_cases h : path = pfx ++ e.name
  · exact Or.inl (treeCb_match sid path pfx e vec h)
  · cases e with
    | mk n i k fm sb =>
      simp only [treeCb, TEnt.name] at h ⊢
      rw [if_neg h]
      by_cases hc : (decide (TEnt.kind (TEnt.mk n i k fm sb) = some GitObjectType.tree) &&
          !strStartsWith path (pfx ++ n ++ "/")) = true
      · rw [if_pos hc]
        exact Or.inr (Or.inl rfl)
      · rw [if_neg hc]
        exact Or.inr (Or.inr rfl)

theorem wfL_sub_of_tree (n : String) (i : Nat) (fm : Int) (sb : Option (List TEnt))
    (rest : List TEnt)
    (hwf : wfL (TEnt.mk n i (some GitObjectType.tree) fm sb :: rest) = true) :
    ∃ sub, sb = some sub ∧ wfL sub = true := by
  have parts := (wfL_cons_iff n i (some GitObjectType.tree) fm sb rest).mp hwf
  cases sb with
  | none => exact absurd parts.2.2.2.1 (by simp)
  | some sub => exact ⟨sub, rfl, parts.2.2.2.1⟩

theorem walkL_state_cases (sid : Nat → String) (path : String) (m : Nat) :
    ∀ (es : List TEnt) (pfx : String) (s : List GitTree), sizeL es ≤ m → wfL es = true →
      ((walkL (treeCb sid path) pfx es s).2 ≠ WalkOut.aborted →
        (walkL (treeCb sid path) pfx es s).1 = s) ∧
      ((walkL (treeCb sid path) pfx es s).2 = WalkOut.aborted →
        ((walkL (treeCb sid path) pfx es s).1 = s ∨
        (∃ e p2, (walkL (treeCb sid path) pfx es s).1 = s ++ [convertToTree sid e p2]) ∨
        (∃ ts p2, wfL ts = true ∧
          (walkL (treeCb sid path) pfx es s).1 = collectTree sid ts p2))) := by
  induction m with
  | zero =>
    intro es pfx s hsz hwf
    cases es with
    | nil =>
      rw [walkL_nil]
      exact ⟨fun _ => rfl, fun h => absurd h (by simp)⟩
    | cons e rest =>
      cases e with
      | mk n i k fm sb =>
        rw [sizeL_cons] at hsz
        omega
  | succ m ihm =>
    intro es pfx s hsz hwf
    cases es with
    | nil =>
      rw [walkL_nil]
      exact ⟨fun _ => rfl, fun h => absurd h (by simp)⟩
    | cons e rest =>
      cases e with
      | mk n i k fm sb =>
        have parts := (wfL_cons_iff n i k fm sb rest).mp hwf
        have hwfr : wfL rest = true := parts.2.2.2.2
        rw [sizeL_cons] at hsz
        have hszr : sizeL rest ≤ m := by omega
        rcases treeCb_cases sid path pfx (TEnt.mk n i k fm sb) s with hcb | hcb | hcb
        · rw [walkL_cons_abort (treeCb sid path) pfx _ rest s _ hcb]
          refine ⟨fun h => absurd rfl h, fun _ => ?_⟩
          by_cases hk : k = some GitObjectType.tree
          · subst hk
            obtain ⟨sub, hsb, hwfsub⟩ := wfL_sub_of_tree n i fm sb rest hwf
            subst hsb
            right
            right
            refine ⟨sub, path ++ "/", hwfsub, ?_⟩
            rw [matchVal_tree sid path pfx (TEnt.mk n i (some GitObjectType.tree) fm
              (some sub)) s sub rfl rfl]
          · right
            left
            exact ⟨TEnt.mk n i k fm sb, pfx,
              matchVal_nontree sid path pfx _ s (by simpa [TEnt.kind] using hk)⟩
        · rw [walkL_cons_skip (treeCb sid path) pfx _ rest s s hcb]
          exact ihm rest pfx s hszr hwfr
        · by_cases hk : k = some GitObjectType.tree
          · subst hk
            obtain ⟨sub, hsb, hwfsub⟩ := wfL_sub_of_tree n i fm sb rest hwf
            subst hsb
            have hsz2 : 1 + sizeL sub + sizeL rest ≤ m + 1 := hsz
            have hszsub : sizeL sub ≤ m := by omega
            rw [walkL_cons_ok_tree_sub (treeCb sid path) pfx n i fm sub rest s s hcb]
            have ihsub := ihm sub (pfx ++ n ++ "/") s hszsub hwfsub
            rcases hw : walkL (treeCb sid path) (pfx ++ n ++ "/") sub s with ⟨s2, o⟩
            rw [hw] at ihsub
            cases o with
            | done =>
              have hs2 : s2 = s := ihsub.1 (by simp)
              subst hs2
              exact ihm rest pfx s2 hszr hwfr
            | aborted =>
              exact ⟨fun h => absurd rfl h, fun _ => ihsub.2 rfl⟩
            | failed =>
              have hs2 : s2 = s := ihsub.1 (by simp)
              subst hs2
              exact ⟨fun _ => rfl, fun h => absurd h (by simp)⟩
          · rw [walkL_cons_ok_nontree (treeCb sid path) pfx _ rest s s hcb
              (by simpa [TEnt.kind] using hk)]
            exact ihm rest pfx s hszr hwfr

theorem wfL_names_nodup (es : List TEnt) (hwf : wfL es = true) : (namesOf es).Nodup := by
  induction es with
  | nil => simp [namesOf]
  | cons e rest ih =>
    cases e with
    | mk n i k fm sb =>
      have parts := (wfL_cons_iff n i k fm sb rest).mp hwf
      rw [namesOf_cons, List.nodup_cons]
      refine ⟨?_, ih parts.2.2.2.2⟩
      have := parts.2.2.1
      simpa using this

theorem collectTree_map_fullPath (sid : Nat → String) (ts : List TEnt) (pfx : String) :
    (collectTree sid ts pfx).map GitTree.fullPath = (namesOf ts).map (fun nm => pfx ++ nm) := by
  simp [collectTree, convertToTree, GitTree.fullPath, namesOf]

theorem collectTree_nodup (sid : Nat → String) (ts : List TEnt) (pfx : String)
    (hwf : wfL ts = true) : ((collectTree sid ts pfx).map GitTree.fullPath).Nodup := by
  rw [collectTree_map_fullPath]
  refine (wfL_names_nodup ts hwf).map ?_
  intro a b hab
  exact strAppend_cancel_left hab

/-- C3 counterexample: an index holding the two distinct paths "a/b" and
"a/b/c" makes list_index("a") return a file entry and a directory node
that share the full path "a/b" — the per-call seen-set only
deduplicates directory nodes against each other. -/
theorem C3_duplicate_counterexample :
    (listIndex sid0 [sampleIndexEntry "a/b", sampleIndexEntry "a/b/c"] "a").map
        GitIndex.fullPath = ["a/b", "a/b"] ∧
    ¬ ((listIndex sid0 [sampleIndexEntry "a/b", sampleIndexEntry "a/b/c"] "a").map
        GitIndex.fullPath).Nodup := by
  decide

/-- C3 amended: under the data-model invariants — index paths pairwise
distinct with no source path a proper '/'-segment prefix of another, and
trees with per-level distinct, slash-free, non-empty names and
resolvable subtrees — list_index and list_tree never return two
elements with the same full path. -/
theorem C3_no_duplicates (sid : Nat → String) (entries : List IndexEntry)
    (root : List TEnt) (P Pt : String)
    (hnd : (entries.map IndexEntry.path).Nodup)
    (hpre : ∀ p ∈ entries.map IndexEntry.path, ∀ q ∈ entries.map IndexEntry.path,
      strStartsWith q (p ++ "/") = false)
    (hwf : wfL root = true) :
    ((listIndex sid entries P).map GitIndex.fullPath).Nodup ∧
    (∀ v, listTree sid root Pt = Except.ok v → (v.map GitTree.fullPath).Nodup) := by
  constructor
  · rw [listIndex_eq]
    exact listIndexGo_nodup sid (stripSuffixSlash P) entries [] hnd hpre
  · intro v hv
    have hv2 : v = listTreeVec sid root Pt := by
      have : Except.ok (listTreeVec sid root Pt) = (Except.ok v : Except GitError _) := by
        rw [← hv, listTree]
      injection this with h2
      exact h2.symm
    subst hv2
    by_cases hP : stripSuffixSlash Pt = ""
    · rw [listTreeVec, hP]
      simp only [if_pos rfl]
      exact collectTree_nodup sid root "" hwf
    · rw [listTreeVec]
      simp only [if_neg hP]
      have hD := walkL_state_cases sid (stripSuffixSlash Pt) (sizeL root) root "" []
        le_rfl hwf
      by_cases ho : (walkL (treeCb sid (stripSuffixSlash Pt)) "" root []).2 = WalkOut.aborted
      · rcases hD.2 ho with h | ⟨e, p2, h⟩ | ⟨ts, p2, hwfts, h⟩
        · rw [h]
          simp
        · rw [h]
          simp
        · rw [h]
          exact collectTree_nodup sid ts p2 hwfts
      · rw [hD.1 ho]
        simp

theorem C3_no_duplicates_witness :
    ((listIndex sid0 [sampleIndexEntry "a/b", sampleIndexEntry "c"] "a").map
        GitIndex.fullPath).Nodup ∧
    ((listTreeVec sid0 [TEnt.mk "x" 1 (some GitObjectType.blob) 33188 none] "x").map
        GitTree.fullPath).Nodup :=
  ⟨(C3_no_duplicates sid0 [sampleIndexEntry "a/b", sampleIndexEntry "c"]
      [TEnt.mk "x" 1 (some GitObjectType.blob) 33188 none] "a" "x"
      (by decide) (by decide) (by simp [wfL, namesOf, strContainsChar, TEnt.name])).1,
    (C3_no_duplicates sid0 [sampleIndexEntry "a/b", sampleIndexEntry "c"]
      [TEnt.mk "x" 1 (some GitObjectType.blob) 33188 none] "a" "x"
      (by decide) (by decide) (by simp [wfL, namesOf, strContainsChar, TEnt.name])).2
      (listTreeVec sid0 [TEnt.mk "x" 1 (some GitObjectType.blob) 33188 none] "x") rfl⟩

/-- C7 counterexample: on a tree whose single entry is a tree object
that fails to resolve, querying below it makes the walk stop with a
backend failure, yet list_tree still returns Ok with the (empty)
collected result — the failure is not surfaced as a typed error, contra
the second half of the claim. -/
theorem C7_walk_failure_swallowed_counterexample :
    listTreeWalkOut sid0 [TEnt.mk "a" 7 (some GitObjectType.tree) 16384 none] "a/b" =
      WalkOut.failed ∧
    listTree sid0 [TEnt.mk "a" 7 (some GitObjectType.tree) 16384 none] "a/b" =
      Except.ok [] := by
  have hcb : treeCb sid0 "a/b" ""
      (TEnt.mk "a" 7 (some GitObjectType.tree) 16384 none) [] = (TWRes.ok, []) :=
    treeCb_ok_of_descend sid0 "a/b" "" (TEnt.mk "a" 7 (some GitObjectType.tree) 16384 none)
      [] (by decide) (by decide)
  have hw := walkL_cons_ok_tree_none (treeCb sid0 "a/b") "" "a" 7 16384 [] [] [] hcb
  constructor
  · rw [listTreeWalkOut_walk sid0 _ "a/b" (by decide) (by decide), hw]
  · rw [listTree, listTreeVec_walk sid0 _ "a/b" (by decide) (by decide), hw]

/-- C7 amended: list_tree returns an empty Ok collection — not an
error — when the (normalized, non-empty) query path matches no entry of
a well-formed tree; moreover after the root tree is resolved list_tree
can never return an error at all: the failure outcome of the walk, including
a mid-walk backend failure, is discarded by unwrap_or_default and the
collected (possibly empty) result is returned as Ok. -/
theorem C7_listTree_noMatch_empty (sid : Nat → String) (root : List TEnt) (P : String) :
    (∃ v, listTree sid root P = Except.ok v) ∧
    (wfL root = true → stripSuffixSlash P = P → P ≠ "" →
      findSegs "" root (pathSegs P) = none →
      listTree sid root P = Except.ok []) := by
  constructor
  · exact ⟨listTreeVec sid root P, rfl⟩
  · intro hwf hnorm hP hfind
    have hnm : P ∉ allPathsL "" root := by
      intro hmem
      obtain ⟨r, hq, hrne, x, hfs⟩ :=
        mem_allPathsL_findSegs (sizeL root) root "" P le_rfl hwf hmem
      have hrP : r = P := by
        rw [hq, String.empty_append]
      rw [hrP] at hfs
      rw [hfind] at hfs
      exact Option.noConfusion hfs
    have hw := walkL_noMatch sid P (sizeL root) root "" [] le_rfl hwf hnm
    rw [listTree, listTreeVec_walk sid root P hnorm hP, hw]

theorem C7_listTree_noMatch_empty_witness :
    listTree sid0 [TEnt.mk "a" 1 (some GitObjectType.blob) 33188 none] "b" =
      Except.ok [] :=
  (C7_listTree_noMatch_empty sid0 [TEnt.mk "a" 1 (some GitObjectType.blob) 33188 none]
    "b").2
    (by simp [wfL, namesOf, strContainsChar, TEnt.name])
    (by decide) (by decide)
    (by rw [show pathSegs "b" = ["b"] from by decide]
        rw [findSegs.eq_def]
        simp [findSegs])

/-! ## C1, C8, C9, C10 -/

/-- C1: evaluating the `MaybeLossyUtf8` byte conversion shows that on the
invalid UTF-8 byte sequence [0xFF] it panics (`none`, since
`Result::expect` is applied to the `Err` that `String::from_utf8`
returns there), while on valid UTF-8 it returns the lossless decoding —
contradicting the claim that every byte sequence yields a string and
the conversion never panics. -/
theorem C1_maybeLossyUtf8_panics_on_invalid :
    maybeLossyUtf8FromBytes [0xFF] = none ∧
    maybeLossyUtf8FromBytes [0x61, 0xC3, 0xA9] = some [0x61, 0xC3, 0xA9] := by
  decide

theorem gitErrorFrom_odb_notFound (e : Git2Error) (hc : e.cls = ErrClass.odb)
    (hk : e.code = ErrCode.notFound) :
    gitErrorFrom e = GitError.objectNotFound e.message := by
  obtain ⟨c, k, msg⟩ := e
  simp only at hc hk
  subst hc
  subst hk
  rfl

theorem gitErrorFrom_other (e : Git2Error)
    (h : ¬(e.cls = ErrClass.odb ∧ e.code = ErrCode.notFound)) :
    gitErrorFrom e = GitError.unhandled
      ("Unhandled " ++ e.cls.debugStr ++ " " ++ e.code.debugStr ++ ": " ++ e.message) := by
  obtain ⟨c, k, msg⟩ := e
  simp only at h
  cases c <;> cases k <;> simp_all [gitErrorFrom]

theorem gitErrorFrom_ne_repositoryNotFound (e : Git2Error) (q : String) :
    gitErrorFrom e ≠ GitError.repositoryNotFound q := by
  obtain ⟨c, k, msg⟩ := e
  cases c <;> cases k <;> simp [gitErrorFrom]

/-- C8: get_blob classifies backend failures once, through the
From(git2::Error) boundary: assuming the backend reports class Odb /
code NotFound exactly for ids absent from the store, get_blob fails
with ObjectNotFound exactly for missing ids, fails with Unhandled
(carrying the backend diagnostic text) for any other backend error, and
returns the blob on success. -/
theorem C8_getBlob_error_classification (findBlob : Nat → Except Git2Error RawBlob)
    (sid : Nat → String) (storeB : Nat → Bool) (oid : Nat)
    (hmiss : ∀ i, storeB i = false → ∃ e, findBlob i = Except.error e)
    (hclass : ∀ i e, findBlob i = Except.error e →
      ((e.cls = ErrClass.odb ∧ e.code = ErrCode.notFound) ↔ storeB i = false)) :
    (storeB oid = false → ∃ msg, getBlob findBlob sid oid =
      some (Except.error (GitError.objectNotFound msg))) ∧
    (∀ e, findBlob oid = Except.error e → storeB oid = true →
      getBlob findBlob sid oid = some (Except.error (GitError.unhandled
        ("Unhandled " ++ e.cls.debugStr ++ " " ++ e.code.debugStr ++ ": " ++
          e.message)))) ∧
    (∀ e, findBlob oid = Except.error e →
      getBlob findBlob sid oid = some (Except.error (gitErrorFrom e))) ∧
    (∀ b, findBlob oid = Except.ok b →
      (b.isBinary = true ∨ utf8Valid b.content = true) →
      ∃ blob, getBlob findBlob sid oid = some (Except.ok blob)) := by
  have hboundary : ∀ e, findBlob oid = Except.error e →
      getBlob findBlob sid oid = some (Except.error (gitErrorFrom e)) := by
    intro e he
    simp [getBlob, he]
  refine ⟨?_, ?_, hboundary, ?_⟩
  · intro hmiss0
    obtain ⟨e, he⟩ := hmiss oid hmiss0
    have hcl := (hclass oid e he).mpr hmiss0
    refine ⟨e.message, ?_⟩
    rw [hboundary e he, gitErrorFrom_odb_notFound e hcl.1 hcl.2]
  · intro e he hin
    have hne : ¬(e.cls = ErrClass.odb ∧ e.code = ErrCode.notFound) := by
      intro hcontra
      rw [(hclass oid e he).mp hcontra] at hin
      exact Bool.noConfusion hin
    rw [hboundary e he, gitErrorFrom_other e hne]
  · intro b hb hcontent
    by_cases hbin : b.isBinary
    · refine ⟨{ content := GitBlobContent.binary b.content
                id := b.id
                is_binary := b.isBinary
                short_id := sid b.id
                size := b.size }, ?_⟩
      simp [getBlob, hb, hbin]
    · have hval : utf8Valid b.content = true := by
        rcases hcontent with h | h
        · exact absurd h (by simpa using hbin)
        · exact h
      refine ⟨{ content := GitBlobContent.text b.content
                id := b.id
                is_binary := b.isBinary
                short_id := sid b.id
                size := b.size }, ?_⟩
      simp [getBlob, hb, hbin, maybeLossyUtf8FromBytes, hval]

theorem C8_getBlob_error_classification_witness :
    ∃ msg, getBlob findBlob0 sid0 0 = some (Except.error (GitError.objectNotFound msg)) :=
  (C8_getBlob_error_classification findBlob0 sid0 storeB0 0
    (fun i hi => ⟨odbNotFoundErr,
      by simp [storeB0] at hi
         simp [findBlob0, hi]⟩)
    (fun i e he => by
      by_cases h1 : i = 1
      · subst h1
        simp [findBlob0] at he
      · simp [findBlob0, h1] at he
        constructor
        · intro _
          simp [storeB0, h1]
        · intro _
          rw [← he]
          exact ⟨rfl, rfl⟩)).1 (by decide)

/-- C9: open maps a backend (Os | Repository, NotFound) failure — which
the backend produces exactly when the location holds no valid
repository — to RepositoryNotFound carrying the queried location, and
every other backend failure class to a different error variant via the
From(git2::Error) mapping, which can never produce RepositoryNotFound. -/
theorem C9_open_repositoryNotFound (openRepo : String → Except Git2Error Unit)
    (path : String) (validB : String → Bool)
    (hinv : validB path = false → ∃ e, openRepo path = Except.error e ∧
      (e.cls = ErrClass.os ∨ e.cls = ErrClass.repository) ∧ e.code = ErrCode.notFound) :
    (validB path = false →
      openGit openRepo path = Except.error (GitError.repositoryNotFound path)) ∧
    (∀ e, openRepo path = Except.error e →
      ¬((e.cls = ErrClass.os ∨ e.cls = ErrClass.repository) ∧ e.code = ErrCode.notFound) →
      openGit openRepo path = Except.error (gitErrorFrom e) ∧
      ∀ q, gitErrorFrom e ≠ GitError.repositoryNotFound q) := by
  constructor
  · intro hval
    obtain ⟨e, he, hcls, hcode⟩ := hinv hval
    simp only [openGit, he]
    rw [if_pos ⟨hcls, hcode⟩]
  · intro e he hne
    refine ⟨?_, gitErrorFrom_ne_repositoryNotFound e⟩
    simp only [openGit, he]
    rw [if_neg hne]

theorem C9_open_repositoryNotFound_witness :
    openGit openRepo0 "/no/such/dir" =
      Except.error (GitError.repositoryNotFound "/no/such/dir") :=
  (C9_open_repositoryNotFound openRepo0 "/no/such/dir" (fun _ => false)
    (fun _ => ⟨osNotFoundErr, rfl, Or.inl rfl, rfl⟩)).1 rfl

/-- C10: a reference that cannot be resolved to a direct target — its
resolve() fails (and, as for every unresolvable libgit2 reference, it
carries no direct target itself) or the resolved reference has no
target id — is reported by list_reference and list_branch with the
all-zero object id (0) as its target, rather than failing or being
omitted: the converted entry is present with its name and zero target,
and the output length equals the number of backend-yielded items. -/
theorem C10_unresolvable_reference_zero_id (sidRef : RefRec → String) (r : RefRec)
    (b : BranchRec) (hsym : r.resolved = none → r.target = none)
    (hr : r.resolved = none ∨ r.resolved = some none)
    (hbsym : b.ref.resolved = none → b.ref.target = none)
    (hb : b.ref.resolved = none ∨ b.ref.resolved = some none) :
    refGetId r = 0 ∧
    (∀ items : List (Option RefRec), some r ∈ items →
      ∃ o ∈ listReference sidRef items,
        o.name = r.name ∧ o.shorthand = r.shorthand ∧ o.target = 0) ∧
    (∀ items : List (Option BranchRec), some b ∈ items →
      ∃ o ∈ listBranch sidRef items, o.name = b.ref.name ∧ o.target = 0) ∧
    (∀ items : List (Option RefRec),
      (listReference sidRef items).length = (items.filterMap id).length) ∧
    (∀ items : List (Option BranchRec),
      (listBranch sidRef items).length = (items.filterMap id).length) := by
  have hzero : ∀ r2 : RefRec, (r2.resolved = none → r2.target = none) →
      (r2.resolved = none ∨ r2.resolved = some none) → refGetId r2 = 0 := by
    intro r2 h1 h2
    rcases h2 with h2 | h2
    · rw [refGetId, h2, h1 h2]
      rfl
    · rw [refGetId, h2]
      rfl
  refine ⟨hzero r hsym hr, ?_, ?_, ?_, ?_⟩
  · intro items hmem
    refine ⟨convertRef sidRef r, ?_, rfl, rfl, hzero r hsym hr⟩
    exact List.mem_map.mpr ⟨r, List.mem_filterMap.mpr ⟨some r, hmem, rfl⟩, rfl⟩
  · intro items hmem
    refine ⟨convertBranch sidRef b, ?_, rfl, hzero b.ref hbsym hb⟩
    exact List.mem_map.mpr ⟨b, List.mem_filterMap.mpr ⟨some b, hmem, rfl⟩, rfl⟩
  · intro items
    simp [listReference]
  · intro items
    simp [listBranch]

theorem C10_unresolvable_reference_zero_id_witness :
    refGetId refBroken = 0 ∧
    ∃ o ∈ listReference sidRef0 [some refBroken],
      o.name = refBroken.name ∧ o.shorthand = refBroken.shorthand ∧ o.target = 0 :=
  ⟨(C10_unresolvable_reference_zero_id sidRef0 refBroken branchBroken
      (fun _ => rfl) (Or.inl rfl) (fun _ => rfl) (Or.inl rfl)).1,
    (C10_unresolvable_reference_zero_id sidRef0 refBroken branchBroken
      (fun _ => rfl) (Or.inl rfl) (fun _ => rfl) (Or.inl rfl)).2.1
      [some refBroken] (List.mem_singleton.mpr rfl)⟩
